import Mathlib

/-!
Verification of the ddu-source-rust-doc plugin
(src/denops/@ddu-sources/rust-doc.ts).

The TypeScript source is shallowly embedded here.  Strings are modelled by
Lean String (logically a list of characters); the Deno std path helpers
(posix dirname, basename, join, resolve, normalize) that the source imports
are modelled from their std 0.165.0 implementations at the level of
character lists; the effectful pieces (external command output, the HOME
environment variable, directory listings, stat-based existence checks, the
recursive directory walk) are supplied as fields of an explicit
environment structure, and code that can throw returns Except.
-/

deriving instance DecidableEq for Except

namespace RustDocSrc

/-- Split a character list at every occurrence of the separator, keeping
empty pieces: the semantics of JavaScript String.prototype.split with a
one-character separator string. -/
def splitOnChar (sep : Char) : List Char → List (List Char)
  | [] => [[]]
  | c :: tl =>
    if c = sep then [] :: splitOnChar sep tl
    else
      match splitOnChar sep tl with
      | s :: ss => (c :: s) :: ss
      | [] => [[c]]

/-- Intercalate a separator between pieces (inverse of the split above on
separator-free pieces). -/
def intercL (sep : List Char) : List (List Char) → List Char
  | [] => []
  | [s] => s
  | s :: tl => s ++ sep ++ intercL sep tl

/-- Segment-level core of normalizeString from Deno std 0.165.0 path
(_util.ts): drops empty and "." segments, resolves ".." against the
accumulated prefix, keeping ".." pieces at the top only when allowAbove
is set (relative paths). -/
def normSegsAux (allowAbove : Bool) (acc : List (List Char)) : List (List Char) → List (List Char)
  | [] => acc.reverse
  | s :: rest =>
    if s = [] ∨ s = ['.'] then normSegsAux allowAbove acc rest
    else if s = ['.', '.'] then
      match acc with
      | t :: acc2 =>
        if t = ['.', '.'] then normSegsAux allowAbove (s :: t :: acc2) rest
        else normSegsAux allowAbove acc2 rest
      | [] => if allowAbove then normSegsAux allowAbove [s] rest else normSegsAux allowAbove [] rest
    else normSegsAux allowAbove (s :: acc) rest

/-- Does the character list denote an absolute posix path? -/
def isAbsL (p : List Char) : Bool :=
  match p with
  | '/' :: _ => true
  | _ => false

/-- Does the character list end with a path separator? -/
def hasTrailL (p : List Char) : Bool :=
  match p.getLast? with
  | some '/' => true
  | _ => false

/-- The cleaned body of posix normalize: segments normalized and
re-joined. -/
def normBody (p : List Char) : List Char :=
  intercL ['/'] (normSegsAux (!isAbsL p) [] (splitOnChar '/' p))

/-- The body with the dot restored when a relative path normalizes to
nothing. -/
def normBody1 (p : List Char) : List Char :=
  if normBody p = [] ∧ isAbsL p = false then ['.'] else normBody p

/-- The body with the trailing separator restored. -/
def normBody2 (p : List Char) : List Char :=
  if normBody1 p ≠ [] ∧ hasTrailL p = true then normBody1 p ++ ['/'] else normBody1 p

/-- posix normalize from Deno std 0.165.0 path, at segment level. -/
def normalizeL (p : List Char) : List Char :=
  if p = [] then ['.'] else if isAbsL p then '/' :: normBody2 p else normBody2 p

/-- posix join from Deno std 0.165.0 path: concatenate the non-empty parts
with a separator and normalize; zero usable parts give ".". -/
def pjoinL (parts : List (List Char)) : List Char :=
  match parts.filter (fun s => s ≠ []) with
  | [] => ['.']
  | ne => normalizeL (intercL ['/'] ne)

/-- posix dirname from Deno std 0.165.0 path: scan from the end skipping
trailing separators, then skip the last component; the index of the
separator that ends the remaining prefix bounds the slice. -/
def dirnameL (p : List Char) : List Char :=
  match p with
  | [] => ['.']
  | c0 :: tl =>
    let r1 := tl.reverse.dropWhile (fun c => c = '/')
    let r2 := r1.dropWhile (fun c => c ≠ '/')
    if r2 = [] then (if c0 = '/' then ['/'] else ['.'])
    else if c0 = '/' ∧ r2.length = 1 then ['/', '/']
    else (c0 :: tl).take r2.length

/-- posix basename (one-argument form) from Deno std 0.165.0 path: the last
component once trailing separators are dropped. -/
def basenameL (p : List Char) : List Char :=
  ((p.reverse.dropWhile (fun c => c = '/')).takeWhile (fun c => c ≠ '/')).reverse

def path_join (parts : List String) : String := String.mk (pjoinL (parts.map String.data))

def path_dirname (s : String) : String := String.mk (dirnameL s.data)

def path_basename (s : String) : String := String.mk (basenameL s.data)

/-- posix resolve from Deno std 0.165.0 path, restricted to the single
argument form the source uses, with the ambient working directory passed
explicitly in place of Deno.cwd(). -/
def path_resolve (cwd p : String) : String :=
  let s := if isAbsL p.data then p.data else if p.data = [] then cwd.data else cwd.data ++ '/' :: p.data
  let abs := if isAbsL p.data then true else isAbsL cwd.data
  let segs := normSegsAux (!abs) [] (splitOnChar '/' s)
  let body := intercL ['/'] segs
  if abs then String.mk ('/' :: body)
  else if body ≠ [] then String.mk body
  else "."

def strStarts (s pre : String) : Bool := pre.data.isPrefixOf s.data

def strEnds (s suf : String) : Bool := suf.data.isSuffixOf s.data

/-- The whitespace class trimmed by JavaScript String.prototype.trim
(ASCII part; the source only trims the stdout of the external command). -/
def jsWs (c : Char) : Bool :=
  (c == ' ') || (c == '\t') || (c == '\n') || (c == '\r') || (c == '\x0b') || (c == '\x0c')

def jsTrim (s : String) : String :=
  String.mk (((s.data.dropWhile jsWs).reverse.dropWhile jsWs).reverse)

/-!
A small model of the JavaScript RegExp fragment that stripDir constructs:
the pattern is the literal text of a directory path preceded by a start
anchor.  The model supports literal characters, the dot wildcard and the
greedy quantifiers on a single preceding character; every other
metacharacter (groups, classes, alternation, escapes, counted or lazy
quantifiers, further anchors) is treated as a construction failure, which
on the inputs the theorems below mention coincides with the JavaScript
engine: a lone open group is a SyntaxError there, and a leading quantifier
right after the start anchor is a SyntaxError as well.
-/

inductive RAtom
  | lit (c : Char)
  | dot
  deriving DecidableEq

inductive RQuant
  | one
  | star
  | plus
  | opt
  deriving DecidableEq

/-- JavaScript line terminators, which the dot wildcard does not match. -/
def lineTerm (c : Char) : Bool :=
  (c == '\n') || (c == '\r') || (c == '\u2028') || (c == '\u2029')

def matchOne : RAtom → Char → Bool
  | .lit a, c => a == c
  | .dot, c => !(lineTerm c)

/-- Length of the longest run of characters matched by the atom. -/
def greedyRun (a : RAtom) (s : List Char) : Nat :=
  (s.takeWhile (fun c => matchOne a c)).length

/-- Remainders after consuming k, k-1, ..., 0 characters, in that order. -/
def dropsDesc (s : List Char) : Nat → List (List Char)
  | 0 => [s]
  | k + 1 => s.drop (k + 1) :: dropsDesc s k

/-- Remainders after consuming k, k-1, ..., 1 characters, in that order. -/
def dropsDescPos (s : List Char) : Nat → List (List Char)
  | 0 => []
  | k + 1 => s.drop (k + 1) :: dropsDescPos s k

/-- Candidate remainders for one quantified atom, in the order a greedy
backtracking engine tries them. -/
def candidates (a : RAtom) (q : RQuant) (s : List Char) : List (List Char) :=
  match q with
  | .one =>
    match s with
    | c :: tl => if matchOne a c then [tl] else []
    | [] => []
  | .opt =>
    match s with
    | c :: tl => if matchOne a c then [tl, c :: tl] else [c :: tl]
    | [] => [[]]
  | .star => dropsDesc s (greedyRun a s)
  | .plus => dropsDescPos s (greedyRun a s)

/-- Anchored match of a quantified-atom sequence with full backtracking in
greedy order; returns the remainder after the first (leftmost-greedy)
successful match. -/
def matchSeq : List (RAtom × RQuant) → List Char → Option (List Char)
  | [], s => some s
  | (a, q) :: rest, s => (candidates a q s).findSome? (fun s2 => matchSeq rest s2)

/-- Is this character a quantifier symbol? -/
def isQuantChar (c : Char) : Bool := (c == '*') || (c == '+') || (c == '?')

/-- Metacharacters outside the modelled fragment. -/
def metaOther (c : Char) : Bool :=
  (c == '(') || (c == ')') || (c == '[') || (c == ']') || (c == '{') || (c == '}') ||
  (c == '|') || (c == '\\') || (c == '^') || (c == '$')

def parseAtomsAux : List (RAtom × RQuant) → List Char → Option (List (RAtom × RQuant))
  | acc, [] => some acc.reverse
  | acc, c :: tl =>
    if isQuantChar c then
      match acc with
      | (a, RQuant.one) :: acc2 =>
        let q := if c == '*' then RQuant.star else if c == '+' then RQuant.plus else RQuant.opt
        parseAtomsAux ((a, q) :: acc2) tl
      | _ => none
    else if metaOther c then none
    else if c == '.' then parseAtomsAux ((RAtom.dot, RQuant.one) :: acc) tl
    else parseAtomsAux ((RAtom.lit c, RQuant.one) :: acc) tl

/-- Compile the text of a directory path, as used after the start anchor in
the pattern that stripDir builds; none models a RegExp SyntaxError. -/
def parseAtoms (l : List Char) : Option (List (RAtom × RQuant)) := parseAtomsAux [] l

/-- Lines 82-85 of rust-doc.ts:
a trailing separator is ensured on dir, then f.replace(new RegExp("^" +
dir), "") removes the first anchored match, if any; constructing the
RegExp can throw, hence Except. -/
def stripDir (f : String) (dir : String) : Except Unit String :=
  let dirS := if strEnds dir "/" then dir else dir ++ "/"
  match parseAtoms dirS.data with
  | none => Except.error ()
  | some pats =>
    match matchSeq pats f.data with
    | some rest => Except.ok (String.mk rest)
    | none => Except.ok f

/-!
The filename pattern of line 130 of rust-doc.ts,
([^.]+)\.([^.]+)\.html$ — an exec that returns the two groups of the
leftmost match.  Because the character class excludes the dot, neither
group can shrink during backtracking: a match attempt at a given start
either takes the whole dot-free run for each group or fails, so exec is
exactly the first start position whose run, a dot, a second run and the
exact tail ".html" exhaust the string.
-/

def tryAt (s : List Char) : Option (List Char × List Char) :=
  let r1 := s.takeWhile (fun c => c ≠ '.')
  let s1 := s.dropWhile (fun c => c ≠ '.')
  if r1 = [] then none
  else
    match s1 with
    | _ :: s2 =>
      -- the dropped-to head is necessarily the first dot of s
      let r2 := s2.takeWhile (fun c => c ≠ '.')
      if r2 = [] then none
      else if s2.dropWhile (fun c => c ≠ '.') = ['.', 'h', 't', 'm', 'l'] then some (r1, r2)
      else none
    | [] => none

def findPat : List Char → Option (List Char × List Char)
  | [] => none
  | c :: tl =>
    match tryAt (c :: tl) with
    | some r => some r
    | none => findPat tl

/-- Line 117 etc.: one trailing separator removed, the replace(/\/$/, "")
of the source. -/
def stripOneTrail (s : String) : String :=
  match s.data.reverse with
  | c :: r => if c = '/' then String.mk r.reverse else s
  | [] => s

def expandSlashes : List Char → List Char
  | [] => []
  | c :: tl => if c = '/' then ':' :: ':' :: expandSlashes tl else c :: expandSlashes tl

/-- replace(/\//g, "::") of the source. -/
def slashesToColons (s : String) : String := String.mk (expandSlashes s.data)

/-- JavaScript String.prototype.split("::"): split at non-overlapping
occurrences, scanning left to right. -/
def splitCC : List Char → List (List Char)
  | [] => [[]]
  | [c] => [[c]]
  | c :: d :: tl2 =>
    if c = ':' ∧ d = ':' then [] :: splitCC tl2
    else
      match splitCC (d :: tl2) with
      | s :: ss => (c :: s) :: ss
      | [] => [[c]]

/-!
The data model of rust-doc.ts, and the environment through which the
effectful operations reach the filesystem.  The kind of a DocItem is a
String: the source casts the first regex group to its ItemKind union
without a check, so at runtime any string can sit there.
-/

/-- An entry of the recursive walk of a doc root (Deno std walk, filtered
by the source to regular files; the path is the root joined with the
relative path of the file, the name its final component). -/
structure WalkEntry where
  path : String
  name : String
  isFile : Bool
  deriving DecidableEq

/-- An entry of a plain directory listing (Deno.readDir). -/
structure DirEntry where
  name : String
  isDirectory : Bool
  deriving DecidableEq

/-- Lines 87-99 of rust-doc.ts. -/
def ITEM_KINDS : List String :=
  ["module", "struct", "trait", "macro", "fn", "type", "enum", "keyword",
   "constant", "primitive", "traitalias"]

/-- Lines 102-107 of rust-doc.ts. -/
structure DocItem where
  kind : String
  module : Option String
  name : String
  docDir : String
  deriving DecidableEq

/-- The ambient effects of rust-doc.ts as one record.
cmdOutput: the result of new Deno.Command("rustup", ...).output() — none
when awaiting it throws (command missing), some (success, stdout) else.
home: Deno.env.get("HOME").  toolchainsEntries: what iterating
Deno.readDir over the toolchains directory yields — none when the
iteration throws (directory absent or unreadable).  fsExists: the source
helper of lines 47-54, a stat whose failure is caught and returned as
false, hence a total Bool.  cwd: Deno.cwd(), which path.resolve reads.
walkEntries: what walk(docDir, exts html) yields for a given root. -/
structure Fs where
  cmdOutput : Option (Bool × String)
  home : Option String
  toolchainsEntries : Option (List DirEntry)
  fsExists : String → Bool
  cwd : String
  walkEntries : String → List WalkEntry

/-- Did the external command run and exit successfully? -/
def cmdSucceeded (fs : Fs) : Bool :=
  match fs.cmdOutput with
  | some (true, _) => true
  | _ => false

/-- Lines 14-45 of rust-doc.ts.  The try block covers only the command
invocation; on its failure the code falls through to the HOME branch,
where the two Deno.readDir iterations over the toolchains directory run
with no try around them, so their failure escapes (the error value).
Note line 42 joins the bare toolchain directory name with the fixed
subpath: the home and toolchains prefix is not part of the result. -/
def findStdDocDir (fs : Fs) : Except Unit (Option String) :=
  match fs.cmdOutput with
  | some (true, out) => Except.ok (some (path_dirname (jsTrim out)))
  | _ =>
    match fs.home with
    | none => Except.ok none
    | some _homeDir =>
      match fs.toolchainsEntries with
      | none => Except.error ()
      | some entries =>
        let stable := (entries.find? (fun (e : DirEntry) => e.isDirectory && strStarts e.name "stable-")).map
          (fun (e : DirEntry) => e.name)
        let dir :=
          match stable with
          | some d => some d
          | none =>
            ((entries.filter (fun (e : DirEntry) => e.isDirectory && strStarts e.name "nightly-")).getLast?).map
              (fun (e : DirEntry) => e.name)
        Except.ok (dir.map (fun d => path_join [d, "share/doc/rust/html/"]))

/-- Termination measure for the upward searches: the length of the path,
plus one unless the path is one of the stopping values. -/
def cargoMu (p : String) : Nat :=
  p.data.length + (if p = "/" ∨ p = "." ∨ p = "" then 0 else 1)

/-- dropWhile never lengthens a list. -/
def dropWhileLenLe : ∀ (q : Char → Bool) (l : List Char), (l.dropWhile q).length ≤ l.length := by
  intro q l
  induction l with
  | nil => simp [List.dropWhile]
  | cons c tl ih =>
    by_cases h : q c = true
    · simp [List.dropWhile, h]
      exact Nat.le_succ_of_le ih
    · simp [List.dropWhile, h]

/-- The posix dirname of a non-empty path is "/", ".", or strictly
shorter than the path. -/
def dirnameShrink : ∀ l : List Char, l ≠ [] →
    dirnameL l = ['/'] ∨ dirnameL l = ['.'] ∨ (dirnameL l).length < l.length := by
  intro l hl
  match l with
  | [] => exact absurd rfl hl
  | c0 :: tl =>
    have hr1le : (tl.reverse.dropWhile (fun c => c = '/')).length ≤ tl.length := by
      calc (tl.reverse.dropWhile (fun c => c = '/')).length
          ≤ tl.reverse.length := dropWhileLenLe _ _
        _ = tl.length := List.length_reverse tl
    have hr2le :
        ((tl.reverse.dropWhile (fun c => c = '/')).dropWhile (fun c => c ≠ '/')).length ≤
          tl.length := le_trans (dropWhileLenLe _ _) hr1le
    rw [dirnameL]
    by_cases h2 : (tl.reverse.dropWhile (fun c => c = '/')).dropWhile (fun c => c ≠ '/') = []
    · rw [if_pos h2]
      by_cases hc : c0 = '/'
      · rw [if_pos hc]; exact Or.inl rfl
      · rw [if_neg hc]; exact Or.inr (Or.inl rfl)
    · rw [if_neg h2]
      by_cases h3 : c0 = '/' ∧
          ((tl.reverse.dropWhile (fun c => c = '/')).dropWhile (fun c => c ≠ '/')).length = 1
      · rw [if_pos h3]
        refine Or.inr (Or.inr ?_)
        -- the double-slash case needs the tail to hold at least two characters
        have hr1ne : tl.reverse.dropWhile (fun c => c = '/') ≠ [] := by
          intro he
          rw [he] at h2
          exact h2 rfl
        obtain ⟨a, r1t, hr1⟩ := List.exists_cons_of_ne_nil hr1ne
        have hhead := List.head_dropWhile_not (fun c => (c = '/' : Bool)) tl.reverse
        rw [hr1] at hhead
        have ha : ¬(a = '/') := by
          have := hhead (List.cons_ne_nil a r1t)
          rw [List.head_cons] at this
          simpa using this
        have hstep : (tl.reverse.dropWhile (fun c => c = '/')).dropWhile (fun c => c ≠ '/') =
            r1t.dropWhile (fun c => c ≠ '/') := by
          rw [hr1, List.dropWhile_cons]
          simp [ha]
        have h1le : (1 : Nat) ≤ r1t.length := by
          have hlen2 := h3.2
          rw [hstep] at hlen2
          have h4 := dropWhileLenLe (fun c => c ≠ '/') r1t
          omega
        have h2le : 2 ≤ tl.length := by
          have : (tl.reverse.dropWhile (fun c => c = '/')).length = r1t.length + 1 := by
            rw [hr1]; simp
          omega
        simp only [List.length_cons, List.length_nil]
        omega
      · rw [if_neg h3]
        refine Or.inr (Or.inr ?_)
        rw [List.length_take]
        have hr2pos : 0 <
            ((tl.reverse.dropWhile (fun c => c = '/')).dropWhile (fun c => c ≠ '/')).length :=
          List.length_pos_of_ne_nil h2
        simp only [List.length_cons]
        omega

/-- The measure drops across one dirname step away from a non-stopping
path: the termination argument of the recursive upward search. -/
def muDecrease : ∀ p : String, ¬(p = "/" ∨ p = "." ∨ p = "") →
    cargoMu (path_dirname p) < cargoMu p := by
  intro p h
  have hne : p.data ≠ [] := by
    intro he
    apply h
    right; right
    cases p with
    | mk l => cases he; rfl
  have hlen : 1 ≤ p.data.length := List.length_pos_of_ne_nil hne
  have hstep := dirnameShrink p.data hne
  have hdata : (path_dirname p).data = dirnameL p.data := rfl
  have hmu : cargoMu p = p.data.length + 1 := by
    rw [cargoMu, if_neg h]
  rcases hstep with h1 | h1 | h1
  · have : path_dirname p = "/" := by
      cases p with
      | mk l =>
        show String.mk (dirnameL l) = "/"
        rw [show dirnameL (String.mk l).data = dirnameL l from rfl] at h1
        rw [h1]
    rw [this, hmu]
    have : cargoMu "/" = 1 := by decide
    omega
  · have : path_dirname p = "." := by
      cases p with
      | mk l =>
        show String.mk (dirnameL l) = "."
        rw [show dirnameL (String.mk l).data = dirnameL l from rfl] at h1
        rw [h1]
    rw [this, hmu]
    have : cargoMu "." = 1 := by decide
    omega
  · have hle : cargoMu (path_dirname p) ≤ (path_dirname p).data.length + 1 := by
      rw [cargoMu]
      split <;> omega
    rw [hdata] at hle
    omega

/-- Lines 56-64 of rust-doc.ts: check the directory for the marker file,
else recurse into the parent; stop at the filesystem root and at the
degenerate paths. -/
def findCargoProjectDir (fs : Fs) (p : String) : Option String :=
  if h : p = "/" ∨ p = "." ∨ p = "" then none
  else
    let tomlFile := path_join [p, "Cargo.toml"]
    if fs.fsExists tomlFile then some (path_resolve fs.cwd p)
    else findCargoProjectDir fs (path_dirname p)
termination_by cargoMu p
decreasing_by exact muDecrease p h

/-- The directories the upward search of lines 56-64 visits, in the order
it checks them for the marker file. -/
def cargoChain (p : String) : List String :=
  if h : p = "/" ∨ p = "." ∨ p = "" then []
  else p :: cargoChain (path_dirname p)
termination_by cargoMu p
decreasing_by exact muDecrease p h

/-- Lines 66-80 of rust-doc.ts.  The await of findStdDocDir is outside any
try, so an error from it escapes findDocDirs as well. -/
def findDocDirs (fs : Fs) (p : String) : Except Unit (List String) :=
  match findStdDocDir fs with
  | Except.error e => Except.error e
  | Except.ok stdDocDir =>
    let docs :=
      match stdDocDir with
      | some d => if fs.fsExists d then [d] else []
      | none => []
    let docs2 :=
      match findCargoProjectDir fs p with
      | some projectRootDir =>
        let docDir := path_join [projectRootDir, "target/doc/"]
        if fs.fsExists docDir then docs ++ [docDir] else docs
      | none => docs
    Except.ok docs2

/-- Lines 109-143 of rust-doc.ts, over the entries the walk yields.  The
stripDir RegExp is built from docDir alone, so when its construction
throws it does so at the first file entry, before any item is yielded;
the error value models that throw escaping the generator. -/
def getDocItems (docDir : String) : List WalkEntry → Except Unit (List DocItem)
  | [] => Except.ok []
  | e :: rest =>
    if e.isFile then
      match stripDir e.path docDir with
      | Except.error u => Except.error u
      | Except.ok p =>
        if strStarts p "src/" then getDocItems docDir rest
        else if e.name = "index.html" then
          let m := path_basename (path_dirname p)
          if m = "." then getDocItems docDir rest
          else
            let parentModuleDir := path_dirname (path_dirname p)
            let parentModule :=
              if parentModuleDir = "." then none
              else some (slashesToColons (stripOneTrail parentModuleDir))
            (getDocItems docDir rest).map
              (fun l => { kind := "module", module := parentModule, name := m,
                          docDir := docDir } :: l)
        else
          match findPat e.name.data with
          | some (k, n) =>
            let m := slashesToColons (stripOneTrail (path_dirname p))
            (getDocItems docDir rest).map
              (fun l => { kind := String.mk k, module := some m, name := String.mk n,
                          docDir := docDir } :: l)
          | none => getDocItems docDir rest
    else getDocItems docDir rest

/-- The module-level cache of line 145: doc root to the items found there. -/
abbrev Cache : Type := List (String × List DocItem)

/-- The in-operator of line 152 and the read of line 153. -/
def cacheLookup : Cache → String → Option (List DocItem)
  | [], _ => none
  | (k, v) :: t, s => if k = s then some v else cacheLookup t s

/-- The write of lines 157-159 (taken with the loop completed): replace an
existing bucket or add one. -/
def cacheInsert : Cache → String → List DocItem → Cache
  | [], s, v => [(s, v)]
  | (k, w) :: t, s, v => if k = s then (s, v) :: t else (k, w) :: cacheInsert t s v

/-- What one run of the generator genCachedAllDocItemList observes: the
items yielded to the consumer, the cache as left behind, which roots had
their walk started (the instrumentation the cache claims speak about),
and whether the run completed without a throw. -/
structure GenResult where
  items : List DocItem
  cache : Cache
  walked : List String
  ok : Bool
  deriving DecidableEq

/-- The loop of lines 151-163 over the resolved doc roots. -/
def genCachedGo (fs : Fs) : List String → Cache → GenResult
  | [], cache => { items := [], cache := cache, walked := [], ok := true }
  | d :: rest, cache =>
    match cacheLookup cache d with
    | some items =>
      let r := genCachedGo fs rest cache
      { items := items ++ r.items, cache := r.cache, walked := r.walked, ok := r.ok }
    | none =>
      match getDocItems d (fs.walkEntries d) with
      | Except.ok items =>
        let r := genCachedGo fs rest (cacheInsert cache d items)
        { items := items ++ r.items, cache := r.cache, walked := d :: r.walked, ok := r.ok }
      | Except.error _ =>
        { items := [], cache := cacheInsert cache d [], walked := [d], ok := false }

/-- Lines 147-164 of rust-doc.ts, with the module-level cache passed in
and returned. -/
def genCachedAllDocItemList (fs : Fs) (cache : Cache) (p : String) : GenResult :=
  match findDocDirs fs p with
  | Except.error _ => { items := [], cache := cache, walked := [], ok := false }
  | Except.ok docDirs => genCachedGo fs docDirs cache

/-- Lines 166-171 of rust-doc.ts. -/
structure ActionData where
  kind : String
  module : Option String
  name : String
  url : String
  deriving DecidableEq

/-- The consumer-facing entry (the Item of the ddu framework, with the
fields the source fills). -/
structure DduItem where
  word : String
  display : String
  action : ActionData
  deriving DecidableEq

/-- Lines 175-186 of rust-doc.ts. -/
def getDocItemFilePath (a : DocItem) : String :=
  let fp0 := a.docDir
  let fp1 :=
    match a.module with
    | some m => path_join (fp0 :: (splitCC m.data).map String.mk)
    | none => fp0
  if a.kind = "module" then path_join [fp1, a.name, "index.html"]
  else path_join [fp1, a.kind ++ "." ++ a.name ++ ".html"]

/-- Line 190: the maximum length over ITEM_KINDS, computed as the reduce
with no initial value of the source (the first element seeds the fold). -/
def kindWidth : Nat :=
  match ITEM_KINDS.map String.length with
  | h :: t => t.foldl Nat.max h
  | [] => 0

/-- Lines 188-204 of rust-doc.ts.  The module prefix is appended whenever
the module is non-null, the empty string included; the padding width is
clamped at zero by the Math.max of line 193 (Nat subtraction here). -/
def docItemToDduItem (a : DocItem) : DduItem :=
  let m := match a.module with
    | some s => s ++ "::"
    | none => ""
  let padding := String.mk (List.replicate (kindWidth - a.kind.data.length) ' ')
  { word := a.name
    display := a.kind ++ padding ++ " " ++ m ++ a.name
    action := { kind := a.kind, module := a.module, name := a.name,
                url := "file://" ++ getDocItemFilePath a } }

/-- The loop of lines 206-221: the buffer is flushed when a further item
arrives while it already holds BUFFER_SIZE entries, and a final non-empty
buffer is flushed at the end. -/
def convertGo (buf : List DduItem) : List DocItem → List (List DduItem)
  | [] => if buf ≠ [] then [buf] else []
  | a :: rest =>
    if buf.length ≥ 1024 then buf :: convertGo [docItemToDduItem a] rest
    else convertGo (buf ++ [docItemToDduItem a]) rest

/-- Lines 206-221 of rust-doc.ts over a finite item sequence. -/
def convertdocItems (items : List DocItem) : List (List DduItem) :=
  convertGo [] items

/-- Concatenation of the yielded batches. -/
def flattenB : List (List DduItem) → List DduItem
  | [] => []
  | b :: t => b ++ flattenB t

/-!
Side conditions and specification-side definitions used to state the
claims about the walker, the filename pattern and stripDir.
-/

/-- Characters the RegExp model reads as a plain literal or the dot
wildcard: everything except quantifiers and the other metacharacters. -/
def tameChar (c : Char) : Bool := !(isQuantChar c || metaOther c)

/-- Characters with no RegExp meaning at all (the dot excluded too). -/
def noMetaChar (c : Char) : Bool := tameChar c && !(c == '.')

/-- The single-character atom the pattern compiler produces for a tame
character. -/
def charAtom (c : Char) : RAtom × RQuant :=
  (if c = '.' then RAtom.dot else RAtom.lit c, RQuant.one)

/-- A trailing separator ensured, as stripDir does on its dir argument. -/
def withSlash (dir : String) : String := if strEnds dir "/" then dir else dir ++ "/"

/-- What the claim says stripDir computes for a metacharacter-free root:
the leading prefix removed when present, the input otherwise. -/
def dropRoot (dirS f : String) : String :=
  if dirS.data.isPrefixOf f.data then String.mk (f.data.drop dirS.data.length) else f

/-- A well-formed path segment: non-empty, not a dot link, and free of the
separator. -/
def canonSeg (s : List Char) : Prop :=
  s ≠ [] ∧ s ≠ ['.'] ∧ s ≠ ['.', '.'] ∧ '/' ∉ s

instance (s : List Char) : Decidable (canonSeg s) := by
  unfold canonSeg
  infer_instance

/-- Segments the normalization keeps (not empty, not the dot link). -/
def isRealSeg (s : List Char) : Bool := !(s == [] || s == ['.'])

/-- The amended reading of the filename pattern of line 130: the match
exists exactly when the dot-split of the name ends with two non-empty
segments and then html, and the groups are the second-to-last segment
before the extension (the kind) and the last one (the item name). -/
def filePatSpec (l : List Char) : Option (List Char × List Char) :=
  match (splitOnChar '.' l).reverse with
  | h :: n :: k :: _ =>
    if h = ['h', 't', 'm', 'l'] ∧ n ≠ [] ∧ k ≠ [] then some (k, n) else none
  | _ => none

/-- The module string the non-index branch computes for a file whose
relative directory is the given segment list. -/
def modStr (D : List (List Char)) : String :=
  match D with
  | [] => "."
  | _ => String.mk (intercL [':', ':'] D)

/-- The enclosing module the index branch computes for a module page whose
relative directory is the given (non-empty) segment list. -/
def parentMod (D : List (List Char)) : Option String :=
  match D.dropLast with
  | [] => none
  | _ => some (String.mk (intercL [':', ':'] D.dropLast))

/-- An absolute path assembled from segments. -/
def absPath (segs : List (List Char)) : String :=
  String.mk ('/' :: intercL ['/'] segs)

/-- A doc root assembled from segments, with or without the trailing
separator (findDocDirs produces both shapes). -/
def rootStr (R : List (List Char)) (t : Bool) : String :=
  String.mk ('/' :: intercL ['/'] R ++ (if t then ['/'] else []))

/-!
Concrete environments used by the closed counterexample and witness
statements below.
-/

/-- External command fails, HOME is set, reading the toolchains directory
throws (for example because it does not exist). -/
def fsTcGone : Fs :=
  { cmdOutput := some (false, ""), home := some "/home/u", toolchainsEntries := none,
    fsExists := fun _ => false, cwd := "/", walkEntries := fun _ => [] }

/-- External command throws, HOME is set, the toolchains directory holds
one stable toolchain directory. -/
def fsStable : Fs :=
  { cmdOutput := none, home := some "/home/u",
    toolchainsEntries := some [{ name := "stable-x86_64-unknown-linux-gnu", isDirectory := true }],
    fsExists := fun _ => false, cwd := "/", walkEntries := fun _ => [] }

/-- The marker file exists exactly at /a/Cargo.toml. -/
def fsMarkA : Fs :=
  { cmdOutput := some (false, ""), home := none, toolchainsEntries := none,
    fsExists := fun s => s == "/a/Cargo.toml", cwd := "/", walkEntries := fun _ => [] }

/-- No marker file anywhere. -/
def fsBare : Fs :=
  { cmdOutput := some (false, ""), home := none, toolchainsEntries := none,
    fsExists := fun _ => false, cwd := "/", walkEntries := fun _ => [] }

/-- The external command reports /std/index.html, /std exists, and walking
/std yields one struct page; used by the cache witness. -/
def fsStd : Fs :=
  { cmdOutput := some (true, "/std/index.html"), home := none, toolchainsEntries := none,
    fsExists := fun s => s == "/std", cwd := "/",
    walkEntries := fun d =>
      if d == "/std" then [{ path := "/std/struct.Foo.html", name := "struct.Foo.html",
                             isFile := true }]
      else [] }

/-- The item the walk of fsStd produces. -/
def itemStdFoo : DocItem :=
  { kind := "struct", module := some ".", name := "Foo", docDir := "/std" }

/-!
Theorems.  Each claim of the specification gets one theorem, with closed
counterexample and witness statements beside it where needed.
-/

/-- Claim C1, counterexample: with the external command failing, a home
directory set and the toolchains directory unreadable, findDocDirs does
raise, against the claim that it never raises to the caller. -/
theorem C1_counterexample : findDocDirs fsTcGone "/x" = Except.error () := by decide

/-- Claim C1, amended: findDocDirs raises in exactly one situation — the
external command did not succeed, a home directory is set, and reading the
toolchains directory fails; every other failure (command missing or
unsuccessful, marker or doc directories absent) is absorbed and only
shrinks the returned list. -/
theorem C1_findDocDirs_error_iff (fs : Fs) (p : String) :
    findDocDirs fs p = Except.error () ↔
      cmdSucceeded fs = false ∧ fs.home.isSome = true ∧ fs.toolchainsEntries = none := by
  unfold findDocDirs findStdDocDir cmdSucceeded
  rcases fs with ⟨cmd, home, tc, ex, cwd, walk⟩
  dsimp only
  match cmd with
  | some (true, out) => simp
  | some (false, out) =>
    match home with
    | none => simp
    | some h =>
      match tc with
      | none => simp
      | some es => simp
  | none =>
    match home with
    | none => simp
    | some h =>
      match tc with
      | none => simp
      | some es => simp

/-- Claim C2 (code bug): when the command fails and a stable toolchain
directory D is found, findStdDocDir returns D joined with the fixed
subpath only — a relative path missing the home/.rustup/toolchains prefix
that the claim (and the comment atop the source function) state. -/
theorem C2_stdDocDir_drops_prefix :
    findStdDocDir fsStable =
      Except.ok (some "stable-x86_64-unknown-linux-gnu/share/doc/rust/html/") ∧
    "stable-x86_64-unknown-linux-gnu/share/doc/rust/html/" ≠
      "/home/u/.rustup/toolchains/stable-x86_64-unknown-linux-gnu/share/doc/rust/html" := by
  constructor
  · decide
  · decide

/-- Claim C6, counterexample: for a DocItem whose module is the empty
string (non-null), the display string still carries the :: separator,
where the claim says a non-null but empty module gets no prefix. -/
theorem C6_counterexample :
    (docItemToDduItem ⟨"struct", some "", "Foo", "/d"⟩).display = "struct     ::Foo" ∧
      "struct     ::Foo" ≠ "struct     Foo" := by
  constructor
  · decide
  · decide

/-- Claim C6, amended: the display is the kind right-padded to the width
of the longest known kind tag (traitalias), a space, then the module
followed by :: whenever the module is non-null — including the empty
string — and nothing when it is null, then the name. -/
theorem C6_display_format (a : DocItem) :
    (docItemToDduItem a).display =
      a.kind ++ String.mk (List.replicate ("traitalias".data.length - a.kind.data.length) ' ')
        ++ " " ++ (match a.module with | some m => m ++ "::" | none => "") ++ a.name := by
  have h : kindWidth = "traitalias".data.length := by decide
  rw [docItemToDduItem]
  rw [h]

/-- The batching loop invariant: starting from a buffer not above
capacity, the emitted batch sizes follow the division of the total count
by the capacity, and concatenating the batches restores the converted
sequence. -/
theorem convertGo_spec (items : List DocItem) : ∀ buf : List DduItem, buf.length ≤ 1024 →
    ((convertGo buf items).map List.length =
        List.replicate ((buf.length + items.length) / 1024) 1024 ++
          (if (buf.length + items.length) % 1024 ≠ 0
           then [(buf.length + items.length) % 1024] else []) ∧
      flattenB (convertGo buf items) = buf ++ items.map docItemToDduItem) := by
  induction items with
  | nil =>
    intro buf hle
    rw [convertGo]
    by_cases hb : buf = []
    · subst hb
      simp [flattenB]
    · rw [if_pos (by simpa using hb)]
      have hpos : 0 < buf.length := List.length_pos_of_ne_nil hb
      simp only [List.length_nil, Nat.add_zero, List.map_cons, List.map_nil]
      constructor
      · by_cases h1024 : buf.length = 1024
        · rw [h1024]
          decide
        · have hdiv : buf.length / 1024 = 0 := Nat.div_eq_of_lt (by omega)
          have hmod : buf.length % 1024 = buf.length := Nat.mod_eq_of_lt (by omega)
          rw [hdiv, hmod, if_pos (by omega : buf.length ≠ 0)]
          simp
      · simp [flattenB]
  | cons a rest ih =>
    intro buf hle
    rw [convertGo]
    by_cases hfull : buf.length ≥ 1024
    · rw [if_pos hfull]
      have hb : buf.length = 1024 := by omega
      obtain ⟨ihs, ihf⟩ := ih [docItemToDduItem a] (by simp)
      constructor
      · rw [List.map_cons, ihs]
        simp only [List.length_singleton, List.length_cons, hb]
        have hdiv : (1024 + (rest.length + 1)) / 1024 = (1 + rest.length) / 1024 + 1 := by
          omega
        have hmod : (1024 + (rest.length + 1)) % 1024 = (1 + rest.length) % 1024 := by
          omega
        rw [hdiv, hmod, List.replicate_succ]
        simp [Nat.add_comm rest.length 1]
      · rw [flattenB, ihf]
        simp
    · rw [if_neg hfull]
      have hlt : buf.length < 1024 := by omega
      obtain ⟨ihs, ihf⟩ := ih (buf ++ [docItemToDduItem a]) (by simp; omega)
      constructor
      · rw [ihs]
        have hlen : (buf ++ [docItemToDduItem a]).length + rest.length =
            buf.length + (rest.length + 1) := by simp; omega
        rw [hlen]
        simp [List.length_cons]
      · rw [ihf]
        simp

/-- Claim C7: the adapter yields full batches of 1024 followed by one
final partial batch of the remainder when it is non-zero; concatenating
the batches reproduces the converted input, and on 2048, 1025 and 0 items
the batch sizes are [1024, 1024], [1024, 1] and [] respectively. -/
theorem C7_batching (items : List DocItem) :
    ((convertdocItems items).map List.length =
        List.replicate (items.length / 1024) 1024 ++
          (if items.length % 1024 ≠ 0 then [items.length % 1024] else []) ∧
      flattenB (convertdocItems items) = items.map docItemToDduItem) ∧
    (convertdocItems (List.replicate 2048
        { kind := "fn", module := none, name := "x", docDir := "/d" })).map List.length =
      [1024, 1024] ∧
    (convertdocItems (List.replicate 1025
        { kind := "fn", module := none, name := "x", docDir := "/d" })).map List.length =
      [1024, 1] ∧
    convertdocItems [] = [] := by
  have hgen : ∀ l : List DocItem,
      (convertdocItems l).map List.length =
        List.replicate (l.length / 1024) 1024 ++
          (if l.length % 1024 ≠ 0 then [l.length % 1024] else []) ∧
      flattenB (convertdocItems l) = l.map docItemToDduItem := by
    intro l
    have := convertGo_spec l [] (by simp)
    simpa [convertdocItems] using this
  refine ⟨hgen items, ?_, ?_, ?_⟩
  · rw [(hgen _).1, List.length_replicate]
    decide
  · rw [(hgen _).1, List.length_replicate]
    decide
  · rfl

/-- The upward search equals the first element of its visiting chain whose
joined marker file exists, resolved; in particular it terminates for every
input, visits closest-first, and is none when no ancestor has the marker. -/
theorem cargo_chain_spec (fs : Fs) : ∀ p : String,
    findCargoProjectDir fs p =
      ((cargoChain p).find? (fun d => fs.fsExists (path_join [d, "Cargo.toml"]))).map
        (path_resolve fs.cwd) := by
  suffices h : ∀ (n : Nat) (p : String), cargoMu p ≤ n →
      findCargoProjectDir fs p =
        ((cargoChain p).find? (fun d => fs.fsExists (path_join [d, "Cargo.toml"]))).map
          (path_resolve fs.cwd) by
    intro p
    exact h (cargoMu p) p le_rfl
  intro n
  induction n with
  | zero =>
    intro p hp
    have hg : p = "/" ∨ p = "." ∨ p = "" := by
      by_contra hng
      rw [cargoMu, if_neg hng] at hp
      omega
    rw [findCargoProjectDir, cargoChain, dif_pos hg, dif_pos hg]
    rfl
  | succ n ih =>
    intro p hp
    by_cases hg : p = "/" ∨ p = "." ∨ p = ""
    · rw [findCargoProjectDir, cargoChain, dif_pos hg, dif_pos hg]
      rfl
    · rw [findCargoProjectDir, cargoChain, dif_neg hg, dif_neg hg]
      rw [List.find?_cons]
      cases hb : fs.fsExists (path_join [p, "Cargo.toml"]) with
      | true =>
        rw [if_pos hb]
        simp [hb]
      | false =>
        rw [if_neg (by rw [hb]; exact Bool.false_ne_true)]
        simp only [hb]
        have hmu := muDecrease p hg
        exact ih (path_dirname p) (by omega)

/-- Claim C9: the upward project search checks the starting directory and
each successive parent in order (the find? over cargoChain), returns the
closest ancestor holding the marker (resolved), terminates (the functions
are total), visits exactly /a/b/c, /a/b, /a when started at /a/b/c, stops
at /a when the marker is only there, and returns none when no ancestor
holds the marker. -/
theorem C9_upward_search :
    (∀ (fs : Fs) (p : String),
        findCargoProjectDir fs p =
          ((cargoChain p).find? (fun d => fs.fsExists (path_join [d, "Cargo.toml"]))).map
            (path_resolve fs.cwd)) ∧
    cargoChain "/a/b/c" = ["/a/b/c", "/a/b", "/a"] ∧
    findCargoProjectDir fsMarkA "/a/b/c" = some "/a" ∧
    findCargoProjectDir fsBare "/a/b/c" = none := by
  have hd1 : path_dirname "/a/b/c" = "/a/b" := by decide
  have hd2 : path_dirname "/a/b" = "/a" := by decide
  have hd3 : path_dirname "/a" = "/" := by decide
  have hchain : cargoChain "/a/b/c" = ["/a/b/c", "/a/b", "/a"] := by
    rw [cargoChain, dif_neg (by decide), hd1]
    rw [cargoChain, dif_neg (by decide), hd2]
    rw [cargoChain, dif_neg (by decide), hd3]
    rw [cargoChain, dif_pos (by decide)]
  refine ⟨cargo_chain_spec, hchain, ?_, ?_⟩
  · rw [cargo_chain_spec fsMarkA "/a/b/c", hchain]
    decide
  · rw [cargo_chain_spec fsBare "/a/b/c", hchain]
    decide

/-- Looking up the key just inserted gives the inserted bucket. -/
theorem cacheLookup_insert_self (c : Cache) (k : String) (v : List DocItem) :
    cacheLookup (cacheInsert c k v) k = some v := by
  induction c with
  | nil => simp [cacheInsert, cacheLookup]
  | cons kv t ih =>
    obtain ⟨k1, w⟩ := kv
    by_cases h : k1 = k
    · simp [cacheInsert, cacheLookup, h]
    · simp [cacheInsert, cacheLookup, h, ih]

/-- Inserting one key leaves every other key's bucket unchanged. -/
theorem cacheLookup_insert_other (c : Cache) (k k2 : String) (v : List DocItem)
    (h : k ≠ k2) : cacheLookup (cacheInsert c k v) k2 = cacheLookup c k2 := by
  induction c with
  | nil => simp [cacheInsert, cacheLookup, h]
  | cons kv t ih =>
    obtain ⟨k1, w⟩ := kv
    by_cases h1 : k1 = k
    · subst h1
      simp [cacheInsert, cacheLookup, h]
    · simp [cacheInsert, cacheLookup, h1, ih]

/-- The loop over the resolved roots never drops or replaces a bucket that
was already present. -/
theorem genCachedGo_preserves (fs : Fs) : ∀ (dirs : List String) (cache : Cache)
    (k : String) (v : List DocItem), cacheLookup cache k = some v →
    cacheLookup (genCachedGo fs dirs cache).cache k = some v := by
  intro dirs
  induction dirs with
  | nil => intro cache k v h; exact h
  | cons d rest ih =>
    intro cache k v h
    rw [genCachedGo]
    cases hl : cacheLookup cache d with
    | some items =>
      exact ih cache k v h
    | none =>
      have hkd : d ≠ k := by
        intro he
        rw [he, h] at hl
        cases hl
      cases hw : getDocItems d (fs.walkEntries d) with
      | ok items =>
        exact ih (cacheInsert cache d items) k v
          (by rw [cacheLookup_insert_other cache d k items hkd]; exact h)
      | error u =>
        show cacheLookup (cacheInsert cache d []) k = some v
        rw [cacheLookup_insert_other cache d k [] hkd]
        exact h

/-- Replay: after a completed run of the loop, running it again over the
same roots with the resulting cache yields the same items in the same
order, walks nothing, and leaves the cache unchanged. -/
theorem genCachedGo_replay (fs : Fs) : ∀ (dirs : List String) (cache : Cache),
    (genCachedGo fs dirs cache).ok = true →
    genCachedGo fs dirs (genCachedGo fs dirs cache).cache =
      { items := (genCachedGo fs dirs cache).items,
        cache := (genCachedGo fs dirs cache).cache, walked := [], ok := true } := by
  intro dirs
  induction dirs with
  | nil => intro cache hok; rfl
  | cons d rest ih =>
    intro cache hok
    cases hl : cacheLookup cache d with
    | some items =>
      have hrun : genCachedGo fs (d :: rest) cache =
          { items := items ++ (genCachedGo fs rest cache).items,
            cache := (genCachedGo fs rest cache).cache,
            walked := (genCachedGo fs rest cache).walked,
            ok := (genCachedGo fs rest cache).ok } := by
        rw [genCachedGo, hl]
      rw [hrun] at hok ⊢
      dsimp only at hok ⊢
      rw [genCachedGo]
      have hd : cacheLookup (genCachedGo fs rest cache).cache d = some items :=
        genCachedGo_preserves fs rest cache d items hl
      rw [hd, ih cache hok]
    | none =>
      cases hw : getDocItems d (fs.walkEntries d) with
      | ok items =>
        have hrun : genCachedGo fs (d :: rest) cache =
            { items := items ++ (genCachedGo fs rest (cacheInsert cache d items)).items,
              cache := (genCachedGo fs rest (cacheInsert cache d items)).cache,
              walked := d :: (genCachedGo fs rest (cacheInsert cache d items)).walked,
              ok := (genCachedGo fs rest (cacheInsert cache d items)).ok } := by
          rw [genCachedGo, hl, hw]
        rw [hrun] at hok ⊢
        dsimp only at hok ⊢
        rw [genCachedGo]
        have hd : cacheLookup (genCachedGo fs rest (cacheInsert cache d items)).cache d =
            some items :=
          genCachedGo_preserves fs rest (cacheInsert cache d items) d items
            (cacheLookup_insert_self cache d items)
        rw [hd, ih (cacheInsert cache d items) hok]
      | error u =>
        have hrun : genCachedGo fs (d :: rest) cache =
            { items := [], cache := cacheInsert cache d [], walked := [d], ok := false } := by
          rw [genCachedGo, hl, hw]
        rw [hrun] at hok
        cases hok

/-- Claim C8: once a query completed (its run finished without a throw,
every bucket fully populated), querying the same starting path again
replays the caches: the same items in the same order come back, no root
is walked again, and the cache is unchanged. -/
theorem C8_cache_idempotent (fs : Fs) (cache0 : Cache) (p : String)
    (h : (genCachedAllDocItemList fs cache0 p).ok = true) :
    genCachedAllDocItemList fs (genCachedAllDocItemList fs cache0 p).cache p =
      { items := (genCachedAllDocItemList fs cache0 p).items,
        cache := (genCachedAllDocItemList fs cache0 p).cache,
        walked := [], ok := true } := by
  cases hd : findDocDirs fs p with
  | error u =>
    have hrun : genCachedAllDocItemList fs cache0 p =
        { items := [], cache := cache0, walked := [], ok := false } := by
      rw [genCachedAllDocItemList, hd]
    rw [hrun] at h
    cases h
  | ok dirs =>
    have hrun : genCachedAllDocItemList fs cache0 p = genCachedGo fs dirs cache0 := by
      rw [genCachedAllDocItemList, hd]
    have h2 : genCachedAllDocItemList fs (genCachedGo fs dirs cache0).cache p =
        genCachedGo fs dirs (genCachedGo fs dirs cache0).cache := by
      rw [genCachedAllDocItemList, hd]
    rw [hrun] at h ⊢
    rw [h2]
    exact genCachedGo_replay fs dirs cache0 h

/-- Claim C8, witness: a concrete completed first query through fsStd,
whose second query replays the one cached bucket. -/
theorem C8_witness :
    genCachedAllDocItemList fsStd [("/std", [itemStdFoo])] "/" =
      { items := [itemStdFoo], cache := [("/std", [itemStdFoo])],
        walked := [], ok := true } := by
  have hc : findCargoProjectDir fsStd "/" = none := by
    rw [findCargoProjectDir, dif_pos (by decide)]
  have hstd : findStdDocDir fsStd = Except.ok (some "/std") := by decide
  have hdirs : findDocDirs fsStd "/" = Except.ok ["/std"] := by
    rw [findDocDirs, hstd, hc]
    decide
  have hfull : genCachedAllDocItemList fsStd [] "/" =
      { items := [itemStdFoo], cache := [("/std", [itemStdFoo])],
        walked := ["/std"], ok := true } := by
    rw [genCachedAllDocItemList, hdirs]
    decide
  have h := C8_cache_idempotent fsStd [] "/" (by rw [hfull])
  rw [hfull] at h
  exact h

/-- One unfolding step of the pattern compiler. -/
theorem parseAtomsAux_cons (acc : List (RAtom × RQuant)) (c : Char) (tl : List Char) :
    parseAtomsAux acc (c :: tl) =
      if isQuantChar c then
        (match acc with
         | (a, RQuant.one) :: acc2 =>
           parseAtomsAux
             ((a, if c == '*' then RQuant.star else if c == '+' then RQuant.plus
                  else RQuant.opt) :: acc2) tl
         | _ => none)
      else if metaOther c then none
      else if c == '.' then parseAtomsAux ((RAtom.dot, RQuant.one) :: acc) tl
      else parseAtomsAux ((RAtom.lit c, RQuant.one) :: acc) tl := rfl

/-- Tame text compiles to the one-of-each atom sequence. -/
theorem parseAtoms_tame (l : List Char) (h : ∀ c ∈ l, tameChar c = true) :
    parseAtoms l = some (l.map charAtom) := by
  have key : ∀ (l2 : List Char) (acc : List (RAtom × RQuant)),
      (∀ c ∈ l2, tameChar c = true) →
      parseAtomsAux acc l2 = some (acc.reverse ++ l2.map charAtom) := by
    intro l2
    induction l2 with
    | nil =>
      intro acc h2
      simp [parseAtomsAux]
    | cons c tl ih =>
      intro acc h2
      have hc : tameChar c = true := h2 c (by simp)
      have hq : ¬(isQuantChar c = true) := by
        rw [tameChar] at hc
        intro hb
        rw [hb] at hc
        simp at hc
      have hm : ¬(metaOther c = true) := by
        rw [tameChar] at hc
        intro hb
        rw [hb] at hc
        simp at hc
      have htl : ∀ a ∈ tl, tameChar a = true := fun a ha => h2 a (by simp [ha])
      rw [parseAtomsAux_cons, if_neg hq, if_neg hm]
      by_cases hdot : c = '.'
      · rw [if_pos (by simp [hdot] : (c == '.') = true)]
        rw [ih ((RAtom.dot, RQuant.one) :: acc) htl]
        simp [charAtom, hdot]
      · rw [if_neg (by simp [hdot] : ¬((c == '.') = true))]
        rw [ih ((RAtom.lit c, RQuant.one) :: acc) htl]
        simp [charAtom, hdot]
  have := key l [] h
  simpa [parseAtoms] using this

/-- One unfolding step of the matcher. -/
theorem matchSeq_cons (a : RAtom) (q : RQuant) (rest : List (RAtom × RQuant))
    (s : List Char) :
    matchSeq ((a, q) :: rest) s =
      (candidates a q s).findSome? (fun s2 => matchSeq rest s2) := rfl

/-- The candidates of a bare atom on a non-empty input. -/
theorem candidates_one (a : RAtom) (c : Char) (tl : List Char) :
    candidates a RQuant.one (c :: tl) = if matchOne a c then [tl] else [] := rfl

/-- Every tame character matches its own atom. -/
theorem matchOne_charAtom (c : Char) : matchOne (charAtom c).1 c = true := by
  by_cases hdot : c = '.'
  · subst hdot
    decide
  · simp [charAtom, hdot, matchOne]

/-- A sequence of one-of-each atoms consumes exactly its own text and
returns the remainder. -/
theorem matchSeq_self (l : List Char) : ∀ rest : List Char,
    matchSeq (l.map charAtom) (l ++ rest) = some rest := by
  induction l with
  | nil =>
    intro rest
    rfl
  | cons c tl ih =>
    intro rest
    have hsplit : charAtom c = ((charAtom c).1, RQuant.one) := rfl
    rw [List.map_cons, hsplit, List.cons_append, matchSeq_cons, candidates_one,
      if_pos (matchOne_charAtom c), List.findSome?_cons]
    rw [ih rest]

/-- A sequence of pure literal atoms matches exactly the strings it
prefixes, stripping itself. -/
theorem matchSeq_lit (l : List Char) (h : ∀ c ∈ l, ¬(c = '.')) : ∀ s : List Char,
    matchSeq (l.map charAtom) s =
      (if l.isPrefixOf s then some (s.drop l.length) else none) := by
  induction l with
  | nil =>
    intro s
    simp [matchSeq, List.isPrefixOf]
  | cons c tl ih =>
    intro s
    have hc : ¬(c = '.') := h c (by simp)
    have htl : ∀ a ∈ tl, ¬(a = '.') := fun a ha => h a (by simp [ha])
    have hatom : charAtom c = (RAtom.lit c, RQuant.one) := by
      simp [charAtom, hc]
    rw [List.map_cons, hatom]
    cases s with
    | nil =>
      rw [matchSeq_cons]
      show List.findSome? (fun s2 => matchSeq (tl.map charAtom) s2) [] = _
      rw [List.findSome?_nil]
      rw [show (c :: tl).isPrefixOf [] = false from rfl]
      simp
    | cons d s2 =>
      rw [matchSeq_cons, candidates_one]
      by_cases hcd : c = d
      · subst hcd
        rw [if_pos (by simp [matchOne] : matchOne (RAtom.lit c) c = true)]
        rw [List.findSome?_cons]
        rw [ih htl s2]
        rw [show (c :: tl).isPrefixOf (c :: s2) = (c == c && tl.isPrefixOf s2) from rfl]
        rw [show (c == c) = true by simp]
        rw [Bool.true_and]
        by_cases hp : tl.isPrefixOf s2 = true
        · rw [if_pos hp, if_pos hp]
          rfl
        · rw [if_neg hp, if_neg hp]
          rfl
      · rw [if_neg (by simp [matchOne, hcd] : ¬(matchOne (RAtom.lit c) d = true))]
        rw [List.findSome?_nil]
        rw [show (c :: tl).isPrefixOf (d :: s2) = (c == d && tl.isPrefixOf s2) from rfl]
        rw [show (c == d) = false by simp [hcd]]
        rw [Bool.false_and]
        rw [if_neg (by simp)]

/-- Claim C10: for a doc root with no regular-expression metacharacter,
stripDir removes the leading root prefix, trailing slash ensured, exactly
as the claim says; and the precondition is required — a root holding a
plus sign leaves a wrongly unstripped path, and a root holding an open
group makes the RegExp construction throw. -/
theorem C10_stripDir_noMeta (root f : String)
    (h : ∀ c ∈ root.data, noMetaChar c = true) :
    stripDir f root = Except.ok (dropRoot (withSlash root) f) ∧
    stripDir "/a+b/x" "/a+b" = Except.ok "/a+b/x" ∧
    stripDir "/x/f" "/(" = Except.error () := by
  refine ⟨?_, by decide, by decide⟩
  have hslash : ∀ c ∈ (withSlash root).data, noMetaChar c = true := by
    intro c hc
    rw [withSlash] at hc
    by_cases he : strEnds root "/" = true
    · rw [if_pos he] at hc
      exact h c hc
    · rw [if_neg he] at hc
      have hdata : (root ++ "/").data = root.data ++ ['/'] := rfl
      rw [hdata] at hc
      rcases List.mem_append.mp hc with h1 | h1
      · exact h c h1
      · have h2 : c = '/' := by simpa using h1
        subst h2
        decide
  have hnodot : ∀ c ∈ (withSlash root).data, ¬(c = '.') := by
    intro c hc he
    have h2 := hslash c hc
    subst he
    rw [noMetaChar] at h2
    simp [tameChar] at h2
  have htame : ∀ c ∈ (withSlash root).data, tameChar c = true := by
    intro c hc
    have h2 := hslash c hc
    rw [noMetaChar] at h2
    cases hb : tameChar c
    · rw [hb] at h2
      simp at h2
    · rfl
  have hunfold : stripDir f root =
      (match parseAtoms (withSlash root).data with
        | none => Except.error ()
        | some pats =>
          match matchSeq pats f.data with
          | some rest => Except.ok (String.mk rest)
          | none => Except.ok f) := rfl
  rw [hunfold, parseAtoms_tame (withSlash root).data htame]
  show (match matchSeq ((withSlash root).data.map charAtom) f.data with
    | some rest => Except.ok (String.mk rest)
    | none => Except.ok f) = _
  rw [matchSeq_lit (withSlash root).data hnodot f.data, dropRoot]
  by_cases hp : (withSlash root).data.isPrefixOf f.data = true
  · rw [if_pos hp, if_pos hp]
  · rw [if_neg hp, if_neg hp]

/-- Claim C10, witness: the general part applied at a concrete
metacharacter-free root. -/
theorem C10_witness :
    stripDir "/docs/fn.a.html" "/docs" =
      Except.ok (dropRoot (withSlash "/docs") "/docs/fn.a.html") ∧
    stripDir "/a+b/x" "/a+b" = Except.ok "/a+b/x" ∧
    stripDir "/x/f" "/(" = Except.error () :=
  C10_stripDir_noMeta "/docs" "/docs/fn.a.html" (by decide)

/-- A split never produces the empty list of pieces. -/
theorem splitOnChar_ne_nil (sep : Char) (l : List Char) : splitOnChar sep l ≠ [] := by
  cases l with
  | nil => simp [splitOnChar]
  | cons c tl =>
    rw [splitOnChar]
    by_cases h : c = sep
    · simp [h]
    · rw [if_neg h]
      cases hs : splitOnChar sep tl with
      | nil => simp
      | cons s ss => simp

/-- Splitting a list headed by a non-separator prepends that character to
the first piece. -/
theorem splitOnChar_cons_ne (sep c : Char) (tl : List Char) (h : ¬(c = sep)) :
    ∃ s0 ss, splitOnChar sep tl = s0 :: ss ∧
      splitOnChar sep (c :: tl) = (c :: s0) :: ss := by
  cases hs : splitOnChar sep tl with
  | nil => exact absurd hs (splitOnChar_ne_nil sep tl)
  | cons s0 ss =>
    refine ⟨s0, ss, rfl, ?_⟩
    rw [splitOnChar, if_neg h, hs]

/-- No piece of a split contains the separator. -/
theorem seg_no_sep (sep : Char) (l : List Char) : ∀ s ∈ splitOnChar sep l, sep ∉ s := by
  induction l with
  | nil =>
    intro s hs
    rw [splitOnChar] at hs
    simp at hs
    subst hs
    simp
  | cons c tl ih =>
    intro s hs
    by_cases h : c = sep
    · subst h
      rw [splitOnChar, if_pos rfl] at hs
      rcases List.mem_cons.mp hs with h1 | h1
      · subst h1
        simp
      · exact ih s h1
    · obtain ⟨s0, ss, h1, h2⟩ := splitOnChar_cons_ne sep c tl h
      rw [h2] at hs
      rcases List.mem_cons.mp hs with h3 | h3
      · subst h3
        intro hmem
        rcases List.mem_cons.mp hmem with h4 | h4
        · exact h h4.symm
        · exact ih s0 (by rw [h1]; exact List.mem_cons_self s0 ss) h4
      · exact ih s (by rw [h1]; exact List.mem_cons_of_mem s0 h3)

/-- Splitting is undone by interleaving the separator back. -/
theorem interc_splitOnChar (sep : Char) (l : List Char) :
    intercL [sep] (splitOnChar sep l) = l := by
  induction l with
  | nil => rfl
  | cons c tl ih =>
    by_cases h : c = sep
    · subst h
      rw [splitOnChar, if_pos rfl]
      cases hs : splitOnChar c tl with
      | nil => exact absurd hs (splitOnChar_ne_nil c tl)
      | cons s ss =>
        have h2 := ih
        rw [hs] at h2
        show [] ++ [c] ++ intercL [c] (s :: ss) = c :: tl
        rw [h2]
        rfl
    · obtain ⟨s0, ss, h1, h2⟩ := splitOnChar_cons_ne sep c tl h
      rw [h2]
      have h3 := ih
      rw [h1] at h3
      cases ss with
      | nil =>
        show c :: s0 = c :: tl
        rw [show intercL [sep] [s0] = s0 from rfl] at h3
        rw [h3]
      | cons s1 ss2 =>
        show (c :: s0) ++ [sep] ++ intercL [sep] (s1 :: ss2) = c :: tl
        rw [show intercL [sep] (s0 :: s1 :: ss2) =
          s0 ++ [sep] ++ intercL [sep] (s1 :: ss2) from rfl] at h3
        rw [← h3]
        simp

/-- Splitting a separator-free prefix followed by the separator peels the
prefix off as the first piece. -/
theorem splitOnChar_seg_append (sep : Char) : ∀ (a b : List Char), sep ∉ a →
    splitOnChar sep (a ++ sep :: b) = a :: splitOnChar sep b := by
  intro a
  induction a with
  | nil =>
    intro b h
    rw [List.nil_append, splitOnChar, if_pos rfl]
  | cons c a2 ih =>
    intro b h
    have hc : ¬(c = sep) := fun he => h (by simp [he])
    have ha2 : sep ∉ a2 := fun hm => h (by simp [hm])
    rw [List.cons_append]
    obtain ⟨s0, ss, h1, h2⟩ := splitOnChar_cons_ne sep c (a2 ++ sep :: b) hc
    rw [h2]
    have h3 : a2 :: splitOnChar sep b = s0 :: ss := by
      rw [← ih b ha2, h1]
    cases h3
    rfl

/-- takeWhile and dropWhile at the first separator of a one-separator
decomposition. -/
theorem takeDrop_seg (a b : List Char) (h : '.' ∉ a) :
    (a ++ '.' :: b).takeWhile (fun c => c ≠ '.') = a ∧
      (a ++ '.' :: b).dropWhile (fun c => c ≠ '.') = '.' :: b := by
  induction a with
  | nil =>
    constructor
    · rw [List.nil_append, List.takeWhile_cons]
      simp
    · rw [List.nil_append, List.dropWhile_cons]
      simp
  | cons c a2 ih =>
    have hc : ¬(c = '.') := fun he => h (by simp [he])
    have ha2 : '.' ∉ a2 := fun hm => h (by simp [hm])
    obtain ⟨iht, ihd⟩ := ih ha2
    constructor
    · rw [List.cons_append, List.takeWhile_cons, if_pos (by simp [hc]), iht]
    · rw [List.cons_append, List.dropWhile_cons, if_pos (by simp [hc]), ihd]

/-- The matcher of one start position, with its bindings expanded. -/
theorem tryAt_unfold (s : List Char) :
    tryAt s =
      (if s.takeWhile (fun c => c ≠ '.') = [] then none
       else
        match s.dropWhile (fun c => c ≠ '.') with
        | _ :: s2 =>
          if s2.takeWhile (fun c => c ≠ '.') = [] then none
          else if s2.dropWhile (fun c => c ≠ '.') = ['.', 'h', 't', 'm', 'l'] then
            some (s.takeWhile (fun c => c ≠ '.'), s2.takeWhile (fun c => c ≠ '.'))
          else none
        | [] => none) := rfl

/-- The one-shot matcher succeeds exactly on the full kind-dot-name-dot-html
decompositions with non-empty dot-free groups. -/
theorem tryAt_eq_some (s k n : List Char) :
    tryAt s = some (k, n) ↔
      (k ≠ [] ∧ n ≠ [] ∧ '.' ∉ k ∧ '.' ∉ n ∧
        s = k ++ '.' :: (n ++ '.' :: ['h', 't', 'm', 'l'])) := by
  constructor
  · intro h
    rw [tryAt_unfold] at h
    by_cases h1 : s.takeWhile (fun c => c ≠ '.') = []
    · rw [if_pos h1] at h
      cases h
    · rw [if_neg h1] at h
      cases hs1 : s.dropWhile (fun c => c ≠ '.') with
      | nil =>
        rw [hs1] at h
        cases h
      | cons d s2 =>
        rw [hs1] at h
        dsimp only at h
        by_cases h2 : s2.takeWhile (fun c => c ≠ '.') = []
        · rw [if_pos h2] at h
          cases h
        · rw [if_neg h2] at h
          by_cases h3 : s2.dropWhile (fun c => c ≠ '.') = ['.', 'h', 't', 'm', 'l']
          · rw [if_pos h3] at h
            have h4 := Option.some.inj h
            have hk : s.takeWhile (fun c => c ≠ '.') = k := congrArg Prod.fst h4
            have hn : s2.takeWhile (fun c => c ≠ '.') = n := congrArg Prod.snd h4
            have hd : d = '.' := by
              have hh := List.head_dropWhile_not (fun c => (c ≠ '.' : Bool)) s
              rw [hs1] at hh
              have := hh (List.cons_ne_nil d s2)
              rw [List.head_cons] at this
              simpa using this
            subst hd
            refine ⟨by rw [← hk]; exact h1, by rw [← hn]; exact h2, ?_, ?_, ?_⟩
            · rw [← hk]
              intro hm
              have := List.mem_takeWhile_imp hm
              simp at this
            · rw [← hn]
              intro hm
              have := List.mem_takeWhile_imp hm
              simp at this
            · have hsdec : s = s.takeWhile (fun c => c ≠ '.') ++
                  s.dropWhile (fun c => c ≠ '.') :=
                (List.takeWhile_append_dropWhile _ _).symm
              have hs2dec : s2 = s2.takeWhile (fun c => c ≠ '.') ++
                  s2.dropWhile (fun c => c ≠ '.') :=
                (List.takeWhile_append_dropWhile _ _).symm
              rw [h3] at hs2dec
              rw [hk] at hsdec
              rw [hn] at hs2dec
              rw [hsdec, hs1, hs2dec]
          · rw [if_neg h3] at h
            cases h
  · rintro ⟨hk, hn, hdk, hdn, hs⟩
    subst hs
    obtain ⟨ht1, hd1⟩ := takeDrop_seg k (n ++ '.' :: ['h', 't', 'm', 'l']) hdk
    obtain ⟨ht2, hd2⟩ := takeDrop_seg n ['h', 't', 'm', 'l'] hdn
    rw [tryAt_unfold, ht1, hd1, if_neg hk]
    dsimp only
    rw [ht2, hd2, if_neg hn, if_pos rfl]


/-- Prepending a dot to the filename never changes the specified match:
it only adds an empty leading dot-segment. -/
theorem filePatSpec_dot_cons (tl : List Char) :
    filePatSpec ('.' :: tl) = filePatSpec tl := by
  rw [filePatSpec, filePatSpec]
  rw [splitOnChar, if_pos rfl]
  rw [List.reverse_cons]
  cases hr : (splitOnChar '.' tl).reverse with
  | nil => exact absurd (List.reverse_eq_nil_iff.mp hr) (splitOnChar_ne_nil '.' tl)
  | cons h0 r0 =>
    cases r0 with
    | nil => rfl
    | cons h1 r1 =>
      cases r1 with
      | nil =>
        show (if h0 = ['h', 't', 'm', 'l'] ∧ h1 ≠ [] ∧ ([] : List Char) ≠ []
          then some (([] : List Char), h1) else none) = none
        rw [if_neg (by simp)]
      | cons h2 r2 => rfl

/-- Prepending a non-dot character to a filename on which the one-shot
matcher fails never changes the specified match. -/
theorem filePatSpec_cons_ne (c : Char) (tl : List Char) (hc : ¬(c = '.'))
    (htry : tryAt (c :: tl) = none) : filePatSpec (c :: tl) = filePatSpec tl := by
  obtain ⟨s0, ss, h1, h2⟩ := splitOnChar_cons_ne '.' c tl hc
  rw [filePatSpec, filePatSpec, h1, h2, List.reverse_cons, List.reverse_cons]
  cases hr : ss.reverse with
  | nil => rfl
  | cons h0 r0 =>
    cases r0 with
    | nil => rfl
    | cons h1v r1 =>
      cases r1 with
      | nil =>
        -- exactly three dot-segments: the head segment is the kind group,
        -- and failure of the one-shot matcher rules the match shape out
        have hss : ss = [h1v, h0] := by
          rw [← List.reverse_reverse ss, hr]
          rfl
        have hsplit : splitOnChar '.' (c :: tl) = [c :: s0, h1v, h0] := by
          rw [h2, hss]
        have hdecomp : c :: tl = (c :: s0) ++ '.' :: (h1v ++ '.' :: h0) := by
          have hi := interc_splitOnChar '.' (c :: tl)
          rw [hsplit] at hi
          rw [← hi]
          rw [show intercL ['.'] [c :: s0, h1v, h0] =
            (c :: s0) ++ ['.'] ++ (h1v ++ ['.'] ++ h0) from rfl]
          simp
        have hnot : ¬(h0 = ['h', 't', 'm', 'l'] ∧ h1v ≠ []) := by
          rintro ⟨hh, hn⟩
          have hmem0 : (c :: s0) ∈ splitOnChar '.' (c :: tl) := by
            rw [hsplit]
            simp
          have hmem1 : h1v ∈ splitOnChar '.' (c :: tl) := by
            rw [hsplit]
            simp
          have hd0 : '.' ∉ (c :: s0) := seg_no_sep '.' (c :: tl) _ hmem0
          have hd1 : '.' ∉ h1v := seg_no_sep '.' (c :: tl) _ hmem1
          have hsome : tryAt (c :: tl) = some ((c :: s0), h1v) := by
            rw [tryAt_eq_some]
            refine ⟨by simp, hn, hd0, hd1, ?_⟩
            rw [hdecomp, hh]
          rw [hsome] at htry
          cases htry
        show (if h0 = ['h', 't', 'm', 'l'] ∧ h1v ≠ [] ∧ (c :: s0) ≠ []
            then some ((c :: s0), h1v) else none) =
          (if h0 = ['h', 't', 'm', 'l'] ∧ h1v ≠ [] ∧ s0 ≠ []
            then some (s0, h1v) else none)
        rw [if_neg (by tauto), if_neg (by tauto)]
      | cons h2v r2 => rfl

/-- The leftmost match of the filename pattern takes the second-to-last
and last dot-segments before the html extension. -/
theorem findPat_eq (l : List Char) : findPat l = filePatSpec l := by
  induction l with
  | nil => rfl
  | cons c tl ih =>
    rw [findPat]
    cases htry : tryAt (c :: tl) with
    | some r =>
      obtain ⟨k, n⟩ := r
      obtain ⟨hk, hn, hdk, hdn, hs⟩ := (tryAt_eq_some (c :: tl) k n).mp htry
      show some (k, n) = filePatSpec (c :: tl)
      rw [filePatSpec, hs]
      rw [splitOnChar_seg_append '.' k _ hdk, splitOnChar_seg_append '.' n _ hdn]
      rw [show splitOnChar '.' ['h', 't', 'm', 'l'] = [['h', 't', 'm', 'l']] from rfl]
      show some (k, n) =
        (if (['h', 't', 'm', 'l'] : List Char) = ['h', 't', 'm', 'l'] ∧ n ≠ [] ∧ k ≠ []
          then some (k, n) else none)
      rw [if_pos ⟨rfl, hn, hk⟩]
    | none =>
      show findPat tl = filePatSpec (c :: tl)
      rw [ih]
      by_cases hc : c = '.'
      · subst hc
        rw [filePatSpec_dot_cons]
      · rw [filePatSpec_cons_ne c tl hc htry]

/-- Claim C4, counterexample: the file a.b.c.html is walked into an item
whose kind is b, the second-to-last dot-segment, not the first dot-segment
a claimed. -/
theorem C4_counterexample :
    getDocItems "/docs" [⟨"/docs/a.b.c.html", "a.b.c.html", true⟩] =
      Except.ok [⟨"b", some ".", "c", "/docs"⟩] ∧
    ("b" : String) ≠ "a" := by
  constructor
  · decide
  · decide

/-- Claim C4, amended: the exec of the filename pattern succeeds exactly
when the dot-split of the filename ends with two non-empty segments and
html; the kind group is the second-to-last dot-segment before the
extension and the name group the last one (for the plain two-segment
kind.name.html filenames this coincides with the first segment);
non-matching filenames produce no groups, hence no item. -/
theorem C4_filename_pattern :
    (∀ name : String, findPat name.data = filePatSpec name.data) ∧
    findPat "a.b.c.html".data = some ("b".data, "c".data) ∧
    findPat "struct.Foo.html".data = some ("struct".data, "Foo".data) ∧
    findPat "all.html".data = none := by
  refine ⟨fun name => findPat_eq name.data, by decide, by decide, by decide⟩

/-- Unfolding of the intercalation over a cons with non-empty tail. -/
theorem interc_cons (sep : List Char) (x : List Char) (Y : List (List Char)) (hY : Y ≠ []) :
    intercL sep (x :: Y) = x ++ sep ++ intercL sep Y := by
  cases Y with
  | nil => exact absurd rfl hY
  | cons y ys => rfl

/-- Intercalation splits over an append of non-empty piece lists. -/
theorem interc_append (sep : List Char) (X Y : List (List Char)) (hX : X ≠ []) (hY : Y ≠ []) :
    intercL sep (X ++ Y) = intercL sep X ++ sep ++ intercL sep Y := by
  induction X with
  | nil => exact absurd rfl hX
  | cons x X2 ih =>
    cases hX2 : X2 with
    | nil =>
      subst hX2
      rw [List.cons_append, List.nil_append]
      rw [interc_cons sep x Y hY]
      rfl
    | cons x2 X3 =>
      have hX2ne : X2 ≠ [] := by rw [hX2]; simp
      rw [← hX2]
      rw [List.cons_append]
      rw [interc_cons sep x (X2 ++ Y)
        (fun he => hX2ne (List.append_eq_nil.mp he).1)]
      rw [interc_cons sep x X2 hX2ne]
      rw [ih hX2ne]
      simp

/-- Splitting a separator-free list keeps it whole. -/
theorem splitOnChar_no_sep (sep : Char) (s : List Char) (h : sep ∉ s) :
    splitOnChar sep s = [s] := by
  induction s with
  | nil => rfl
  | cons c tl ih =>
    have hc : ¬(c = sep) := fun he => h (by simp [he])
    have htl : sep ∉ tl := fun hm => h (by simp [hm])
    rw [splitOnChar, if_neg hc, ih htl]

/-- Splitting undoes the intercalation of separator-free pieces. -/
theorem splitOnChar_interc (sep : Char) (L : List (List Char)) (hL : L ≠ [])
    (h : ∀ s ∈ L, sep ∉ s) : splitOnChar sep (intercL [sep] L) = L := by
  induction L with
  | nil => exact absurd rfl hL
  | cons x L2 ih =>
    cases hL2 : L2 with
    | nil =>
      subst hL2
      exact splitOnChar_no_sep sep x (h x (by simp))
    | cons x2 L3 =>
      have hne : L2 ≠ [] := by rw [hL2]; simp
      rw [← hL2]
      rw [interc_cons [sep] x L2 hne]
      rw [List.append_assoc, List.singleton_append]
      rw [splitOnChar_seg_append sep x (intercL [sep] L2) (h x (by simp))]
      rw [ih hne (fun s hs => h s (by simp [hs]))]

/-- Unfolding of segment normalization on an empty list. -/
theorem normSegsAux_nil (ab : Bool) (acc : List (List Char)) :
    normSegsAux ab acc [] = acc.reverse := rfl

/-- Unfolding of segment normalization on one more segment. -/
theorem normSegsAux_cons (ab : Bool) (acc : List (List Char)) (s : List Char)
    (rest : List (List Char)) :
    normSegsAux ab acc (s :: rest) =
      (if s = [] ∨ s = ['.'] then normSegsAux ab acc rest
       else if s = ['.', '.'] then
         match acc with
         | t :: acc2 =>
           if t = ['.', '.'] then normSegsAux ab (s :: t :: acc2) rest
           else normSegsAux ab acc2 rest
         | [] => if ab then normSegsAux ab [s] rest else normSegsAux ab [] rest
       else normSegsAux ab (s :: acc) rest) := rfl

/-- On segments that are empty, a dot link or well-formed, normalization
is exactly the filter that keeps the well-formed ones. -/
theorem normSegs_clean (ab : Bool) (L : List (List Char))
    (h : ∀ s ∈ L, s = [] ∨ s = ['.'] ∨ canonSeg s) : ∀ acc : List (List Char),
    normSegsAux ab acc L = acc.reverse ++ L.filter isRealSeg := by
  induction L with
  | nil =>
    intro acc
    simp [normSegsAux]
  | cons s rest ih =>
    intro acc
    have hrest : ∀ s2 ∈ rest, s2 = [] ∨ s2 = ['.'] ∨ canonSeg s2 :=
      fun s2 hs2 => h s2 (by simp [hs2])
    rcases h s (by simp) with hs | hs | hs
    · subst hs
      rw [normSegsAux_cons, if_pos (Or.inl rfl)]
      rw [ih hrest acc, List.filter_cons, if_neg (by decide)]
    · subst hs
      rw [normSegsAux_cons, if_pos (Or.inr rfl)]
      rw [ih hrest acc, List.filter_cons, if_neg (by decide)]
    · obtain ⟨h1, h2, h3, _⟩ := hs
      rw [normSegsAux_cons, if_neg (by simp [h1, h2]), if_neg h3]
      rw [ih hrest (s :: acc)]
      have hreal : isRealSeg s = true := by
        rw [isRealSeg]
        simp [h1, h2]
      simp [List.filter_cons, hreal]

/-- Well-formed segments all survive the filter. -/
theorem filter_real_of_canon (L : List (List Char)) (h : ∀ s ∈ L, canonSeg s) :
    L.filter isRealSeg = L := by
  rw [List.filter_eq_self]
  intro s hs
  obtain ⟨h1, h2, _, _⟩ := h s hs
  rw [isRealSeg]
  simp [h1, h2]

/-- The intercalation ends with the last piece, after a prefix that is
empty or ends with the separator. -/
theorem interc_last (sep : Char) (L : List (List Char)) (z : List Char)
    (hz : L.getLast? = some z) :
    ∃ pre, intercL [sep] L = pre ++ z ∧
      (pre = [] ∨ pre.getLast? = some sep) := by
  induction L generalizing z with
  | nil => cases hz
  | cons x L2 ih =>
    cases L2 with
    | nil =>
      rw [List.getLast?_singleton] at hz
      obtain rfl := Option.some.inj hz
      exact ⟨[], rfl, Or.inl rfl⟩
    | cons x2 L3 =>
      rw [List.getLast?_cons_cons] at hz
      obtain ⟨pre, hpre, hp⟩ := ih z hz
      refine ⟨x ++ sep :: pre, ?_, ?_⟩
      · rw [interc_cons [sep] x (x2 :: L3) (by simp)]
        rw [hpre]
        simp
      · right
        rcases hp with hp | hp
        · subst hp
          simp
        · rw [List.getLast?_append]
          have h1 : (sep :: pre).getLast? = some sep := by
            rw [show (sep :: pre : List Char) = [sep] ++ pre from rfl,
              List.getLast?_append, hp]
            rfl
          rw [h1]
          rfl

/-- The intercalation starts with the first piece. -/
theorem interc_head (sep : Char) (L : List (List Char)) (x : List Char)
    (hx : L.head? = some x) :
    ∃ post, intercL [sep] L = x ++ post := by
  cases L with
  | nil => cases hx
  | cons y L2 =>
    rw [List.head?_cons] at hx
    obtain rfl := Option.some.inj hx
    cases L2 with
    | nil => exact ⟨[], by simp [intercL]⟩
    | cons x2 L3 =>
      refine ⟨sep :: intercL [sep] (x2 :: L3), ?_⟩
      rw [interc_cons [sep] y (x2 :: L3) (by simp)]
      simp

/-- takeWhile runs through a block on which the predicate holds. -/
theorem takeWhile_append_of_all (p : Char → Bool) (a b : List Char)
    (h : ∀ c ∈ a, p c = true) :
    (a ++ b).takeWhile p = a ++ b.takeWhile p := by
  induction a with
  | nil => rfl
  | cons c a2 ih =>
    rw [List.cons_append, List.takeWhile_cons, if_pos (h c (by simp))]
    rw [ih (fun c2 hc2 => h c2 (by simp [hc2]))]
    rfl

/-- dropWhile passes over a block on which the predicate holds. -/
theorem dropWhile_append_of_all (p : Char → Bool) (a b : List Char)
    (h : ∀ c ∈ a, p c = true) :
    (a ++ b).dropWhile p = b.dropWhile p := by
  induction a with
  | nil => rfl
  | cons c a2 ih =>
    rw [List.cons_append, List.dropWhile_cons, if_pos (h c (by simp))]
    exact ih (fun c2 hc2 => h c2 (by simp [hc2]))

/-- The intercalation of well-formed pieces is never empty. -/
theorem interc_ne_nil (sep : Char) (L : List (List Char)) (hL : L ≠ [])
    (h : ∀ s ∈ L, canonSeg s) : intercL [sep] L ≠ [] := by
  obtain ⟨post, hpost⟩ := interc_head sep L (L.head hL)
    (List.head?_eq_head hL)
  rw [hpost]
  intro he
  have hh := (h (L.head hL) (List.head_mem hL)).1
  cases hhead : L.head hL with
  | nil => exact hh hhead
  | cons c r =>
    rw [hhead] at he
    cases he

/-- dropWhile keeps everything when the leading block refutes the
predicate and is non-empty. -/
theorem dropWhile_append_keep (p : Char → Bool) (a b : List Char)
    (ha : a ≠ []) (h : ∀ c ∈ a, p c = false) :
    (a ++ b).dropWhile p = a ++ b := by
  cases a with
  | nil => exact absurd rfl ha
  | cons c a2 =>
    rw [List.cons_append, List.dropWhile_cons, if_neg (by rw [h c (by simp)]; simp)]

/-- Unfolding of the posix dirname scan on a non-empty path. -/
theorem dirnameL_cons (c0 : Char) (tl : List Char) :
    dirnameL (c0 :: tl) =
      (if ((tl.reverse.dropWhile (fun c => c = '/')).dropWhile
            (fun c => c ≠ '/')) = [] then
         (if c0 = '/' then ['/'] else ['.'])
       else if c0 = '/' ∧ ((tl.reverse.dropWhile (fun c => c = '/')).dropWhile
            (fun c => c ≠ '/')).length = 1 then ['/', '/']
       else (c0 :: tl).take ((tl.reverse.dropWhile (fun c => c = '/')).dropWhile
            (fun c => c ≠ '/')).length) := rfl

/-- dirname of a separator-free non-empty relative name is the dot. -/
theorem dirname_noslash (l : List Char) (hne : l ≠ []) (hs : '/' ∉ l) :
    dirnameL l = ['.'] := by
  cases l with
  | nil => exact absurd rfl hne
  | cons c0 tl =>
    rw [dirnameL_cons]
    have h1 : tl.reverse.dropWhile (fun c => c = '/') = tl.reverse := by
      cases htl : tl.reverse with
      | nil => rfl
      | cons d r =>
        rw [List.dropWhile_cons]
        have hd : d ∈ tl := by
          have : d ∈ tl.reverse := by rw [htl]; simp
          simpa using this
        have hdm : ¬(d = '/') := fun he => hs (List.mem_cons_of_mem c0 (he ▸ hd))
        rw [if_neg (by simpa using hdm)]
    have h2 : (tl.reverse.dropWhile (fun c => c = '/')).dropWhile
        (fun c => c ≠ '/') = [] := by
      rw [h1, List.dropWhile_eq_nil_iff]
      intro x hx
      have hxm : x ∈ tl := by simpa using hx
      have : ¬(x = '/') := fun he => hs (List.mem_cons_of_mem c0 (he ▸ hxm))
      simpa using this
    rw [if_pos h2]
    have hc0 : ¬(c0 = '/') := fun he => hs (by simp [he])
    rw [if_neg hc0]

/-- dirname of prefix-slash-component is the prefix: the scan drops the
final separator-free component and the separator before it. -/
theorem dirname_concat (q f : List Char) (hq : q ≠ [])
    (hq0 : q.head? ≠ some '/') (hf : f ≠ []) (hfs : '/' ∉ f) :
    dirnameL (q ++ '/' :: f) = q := by
  cases q with
  | nil => exact absurd rfl hq
  | cons c0 q1 =>
    rw [List.cons_append, dirnameL_cons]
    have hfall : ∀ c ∈ f.reverse, decide (c = '/') = false := by
      intro c hc
      have hcm : c ∈ f := by simpa using hc
      simp only [decide_eq_false_iff_not]
      exact fun he => hfs (he ▸ hcm)
    have hrev : (q1 ++ '/' :: f).reverse = f.reverse ++ '/' :: q1.reverse := by
      simp
    have h1 : (q1 ++ '/' :: f).reverse.dropWhile (fun c => c = '/') =
        f.reverse ++ '/' :: q1.reverse := by
      rw [hrev]
      exact dropWhile_append_keep _ _ _ (by simpa using hf) hfall
    have h2 : (f.reverse ++ '/' :: q1.reverse).dropWhile (fun c => c ≠ '/') =
        '/' :: q1.reverse := by
      rw [dropWhile_append_of_all _ _ _ (by
        intro c hc
        have hcm : c ∈ f := by simpa using hc
        simp only [decide_eq_true_eq]
        exact fun he => hfs (he ▸ hcm))]
      rw [List.dropWhile_cons, if_neg (by simp)]
    rw [h1, h2]
    have hlen : ('/' :: q1.reverse).length = (c0 :: q1).length := by simp
    rw [if_neg (by simp)]
    have hc0 : ¬(c0 = '/') := by
      intro he
      exact hq0 (by rw [List.head?_cons, he])
    rw [if_neg (by
      intro hand
      exact hc0 hand.1)]
    rw [hlen]
    rw [show c0 :: (q1 ++ '/' :: f) = (c0 :: q1) ++ '/' :: f from rfl]
    exact List.take_left (c0 :: q1) ('/' :: f)

/-- basename of an intercalation of well-formed segments is the last
segment. -/
theorem basename_interc (D : List (List Char)) (hD : D ≠ [])
    (hDc : ∀ s ∈ D, canonSeg s) :
    basenameL (intercL ['/'] D) = D.getLast hD := by
  obtain ⟨pre, hpre, hp⟩ := interc_last '/' D (D.getLast hD)
    (List.getLast?_eq_getLast D hD)
  have hz := hDc (D.getLast hD) (List.getLast_mem hD)
  obtain ⟨hz1, _, _, hz4⟩ := hz
  rw [basenameL, hpre]
  have hrev : (pre ++ D.getLast hD).reverse =
      (D.getLast hD).reverse ++ pre.reverse := by simp
  rw [hrev]
  have hzall : ∀ c ∈ (D.getLast hD).reverse, decide (c = '/') = false := by
    intro c hc
    have hcm : c ∈ D.getLast hD := by simpa using hc
    simp only [decide_eq_false_iff_not]
    exact fun he => hz4 (he ▸ hcm)
  rw [dropWhile_append_keep _ _ _ (by simpa using hz1) hzall]
  rw [takeWhile_append_of_all _ _ _ (by
    intro c hc
    have hcm : c ∈ D.getLast hD := by simpa using hc
    simp only [decide_eq_true_eq]
    exact fun he => hz4 (he ▸ hcm))]
  have hpre2 : pre.reverse.takeWhile (fun c => c ≠ '/') = [] := by
    rcases hp with hp | hp
    · subst hp
      rfl
    · obtain ⟨pre2, hpre2⟩ : ∃ pre2, pre = pre2 ++ ['/'] := by
        have hpne : pre ≠ [] := by
          intro he
          rw [he] at hp
          cases hp
        refine ⟨pre.dropLast, ?_⟩
        rw [List.getLast?_eq_getLast pre hpne] at hp
        obtain he := Option.some.inj hp
        rw [← he]
        exact (List.dropLast_append_getLast hpne).symm
      rw [hpre2]
      rw [List.reverse_append]
      rw [show (['/'] : List Char).reverse = ['/'] from rfl]
      rw [List.singleton_append, List.takeWhile_cons, if_neg (by simp)]
  rw [hpre2, List.append_nil, List.reverse_reverse]

/-- An intercalation of well-formed segments is never the dot path. -/
theorem interc_ne_dot (D : List (List Char)) (hD : D ≠ [])
    (hDc : ∀ s ∈ D, canonSeg s) :
    intercL ['/'] D ≠ ['.'] := by
  obtain ⟨post, hpost⟩ := interc_head '/' D (D.head hD) (List.head?_eq_head hD)
  obtain ⟨hh1, hh2, _, _⟩ := hDc (D.head hD) (List.head_mem hD)
  intro he
  rw [hpost] at he
  cases hhd : D.head hD with
  | nil => exact hh1 hhd
  | cons c r =>
    rw [hhd] at he
    rw [List.cons_append] at he
    have hc := List.head_eq_of_cons_eq he
    have hr := List.tail_eq_of_cons_eq he
    have : r ++ post = [] := hr
    have hr0 : r = [] := (List.append_eq_nil.mp this).1
    exact hh2 (by rw [hhd, hr0, hc])

/-- The one-trailing-separator strip is the identity on strings that do
not end with the separator. -/
theorem stripOneTrail_of_getLast (s : String) (h : s.data.getLast? ≠ some '/') :
    stripOneTrail s = s := by
  rw [stripOneTrail]
  cases hd : s.data.reverse with
  | nil => rfl
  | cons c r =>
    have hlast : s.data.getLast? = some c := by
      rw [← List.head?_reverse, hd, List.head?_cons]
    have hc : ¬(c = '/') := fun he => h (by rw [hlast, he])
    show (if c = '/' then String.mk r.reverse else s) = s
    rw [if_neg hc]

/-- The slash expansion distributes over append. -/
theorem expand_append (a b : List Char) :
    expandSlashes (a ++ b) = expandSlashes a ++ expandSlashes b := by
  induction a with
  | nil => rfl
  | cons c a2 ih =>
    rw [List.cons_append]
    rw [show expandSlashes (c :: (a2 ++ b)) =
      (if c = '/' then ':' :: ':' :: expandSlashes (a2 ++ b)
       else c :: expandSlashes (a2 ++ b)) from rfl]
    rw [show expandSlashes (c :: a2) =
      (if c = '/' then ':' :: ':' :: expandSlashes a2
       else c :: expandSlashes a2) from rfl]
    by_cases hc : c = '/'
    · rw [if_pos hc, if_pos hc, ih]
      rfl
    · rw [if_neg hc, if_neg hc, ih]
      rfl

/-- The slash expansion is the identity on separator-free text. -/
theorem expand_noslash (a : List Char) (h : '/' ∉ a) :
    expandSlashes a = a := by
  induction a with
  | nil => rfl
  | cons c a2 ih =>
    rw [show expandSlashes (c :: a2) =
      (if c = '/' then ':' :: ':' :: expandSlashes a2
       else c :: expandSlashes a2) from rfl]
    rw [if_neg (fun he => h (by simp [he]))]
    rw [ih (fun hm => h (by simp [hm]))]

/-- Expanding the slashes of a separator intercalation produces the
double-colon intercalation of the same segments. -/
theorem expand_interc (D : List (List Char)) (hD : D ≠ [])
    (h : ∀ s ∈ D, '/' ∉ s) :
    expandSlashes (intercL ['/'] D) = intercL [':', ':'] D := by
  induction D with
  | nil => exact absurd rfl hD
  | cons x D2 ih =>
    cases hD2 : D2 with
    | nil =>
      subst hD2
      exact expand_noslash x (h x (by simp))
    | cons x2 D3 =>
      have hne : D2 ≠ [] := by rw [hD2]; simp
      rw [← hD2]
      rw [interc_cons ['/'] x D2 hne, interc_cons [':', ':'] x D2 hne]
      rw [List.append_assoc, expand_append]
      rw [expand_noslash x (h x (by simp))]
      rw [List.singleton_append,
        show expandSlashes ('/' :: intercL ['/'] D2) =
          ':' :: ':' :: expandSlashes (intercL ['/'] D2) from rfl]
      rw [ih hne (fun s hs => h s (by simp [hs]))]
      simp

/-- Unfolding of the double-colon split on two or more characters. -/
theorem splitCC_cons₂ (c d : Char) (tl2 : List Char) :
    splitCC (c :: d :: tl2) =
      (if c = ':' ∧ d = ':' then [] :: splitCC tl2
       else
         match splitCC (d :: tl2) with
         | s :: ss => (c :: s) :: ss
         | [] => [[c]]) := rfl

/-- The double-colon split keeps colon-free text whole. -/
theorem splitCC_no_colon (l : List Char) (h : ':' ∉ l) :
    splitCC l = [l] := by
  induction l with
  | nil => rfl
  | cons c tl ih =>
    cases htl : tl with
    | nil => rfl
    | cons d tl2 =>
      rw [← htl]
      have hc : ¬(c = ':') := fun he => h (by simp [he])
      rw [htl, splitCC_cons₂, if_neg (fun hand => hc hand.1), ← htl]
      rw [ih (fun hm => h (by simp [hm]))]

/-- The double-colon split severs at a separator following colon-free
text. -/
theorem splitCC_append_sep (a rest : List Char) (h : ':' ∉ a) :
    splitCC (a ++ ':' :: ':' :: rest) = a :: splitCC rest := by
  induction a with
  | nil =>
    rw [List.nil_append, splitCC_cons₂, if_pos ⟨rfl, rfl⟩]
  | cons c a1 ih =>
    have hc : ¬(c = ':') := fun he => h (by simp [he])
    have hx : a1 ++ ':' :: ':' :: rest ≠ [] := by simp
    rw [List.cons_append]
    cases hX : a1 ++ ':' :: ':' :: rest with
    | nil => exact absurd hX hx
    | cons d tl2 =>
      rw [splitCC_cons₂, if_neg (fun hand => hc hand.1), ← hX]
      rw [ih (fun hm => h (by simp [hm]))]

/-- The double-colon split undoes the double-colon intercalation of
colon-free segments. -/
theorem splitCC_interc (D : List (List Char)) (hD : D ≠ [])
    (h : ∀ s ∈ D, ':' ∉ s) :
    splitCC (intercL [':', ':'] D) = D := by
  induction D with
  | nil => exact absurd rfl hD
  | cons x D2 ih =>
    cases hD2 : D2 with
    | nil =>
      subst hD2
      exact splitCC_no_colon x (h x (by simp))
    | cons x2 D3 =>
      have hne : D2 ≠ [] := by rw [hD2]; simp
      rw [← hD2]
      rw [interc_cons [':', ':'] x D2 hne]
      rw [List.append_assoc]
      rw [show ([':', ':'] : List Char) ++ intercL [':', ':'] D2 =
        ':' :: ':' :: intercL [':', ':'] D2 from rfl]
      rw [splitCC_append_sep x _ (h x (by simp))]
      rw [ih hne (fun s hs => h s (by simp [hs]))]

/-- Mapping through the string constructor and back to the data is the
identity on segment lists. -/
theorem map_mk_data (L : List (List Char)) :
    (L.map String.mk).map String.data = L := by
  induction L with
  | nil => rfl
  | cons x L2 ih =>
    rw [List.map_cons, List.map_cons, ih]

/-- "src/" never prefixes a path whose slash-free first segment differs
from src. -/
theorem src_not_prefix (seg r2 : List Char) (hseg : seg ≠ [])
    (hslash : '/' ∉ seg) (hne : seg ≠ ['s', 'r', 'c']) :
    List.isPrefixOf ['s', 'r', 'c', '/'] (seg ++ '/' :: r2) = false := by
  cases seg with
  | nil => exact absurd rfl hseg
  | cons a s1 =>
    rw [List.cons_append]
    rw [show List.isPrefixOf ['s', 'r', 'c', '/'] (a :: (s1 ++ '/' :: r2)) =
      (('s' == a) && List.isPrefixOf ['r', 'c', '/'] (s1 ++ '/' :: r2)) from rfl]
    by_cases ha : 's' = a
    · subst ha
      rw [show ('s' == 's') = true from by simp, Bool.true_and]
      cases s1 with
      | nil =>
        rw [List.nil_append]
        rw [show List.isPrefixOf ['r', 'c', '/'] ('/' :: r2) =
          (('r' == '/') && List.isPrefixOf ['c', '/'] r2) from rfl]
        rw [show ('r' == '/') = false from by decide, Bool.false_and]
      | cons b s2 =>
        rw [List.cons_append]
        rw [show List.isPrefixOf ['r', 'c', '/'] (b :: (s2 ++ '/' :: r2)) =
          (('r' == b) && List.isPrefixOf ['c', '/'] (s2 ++ '/' :: r2)) from rfl]
        by_cases hb : 'r' = b
        · subst hb
          rw [show ('r' == 'r') = true from by simp, Bool.true_and]
          cases s2 with
          | nil =>
            rw [List.nil_append]
            rw [show List.isPrefixOf ['c', '/'] ('/' :: r2) =
              (('c' == '/') && List.isPrefixOf ['/'] r2) from rfl]
            rw [show ('c' == '/') = false from by decide, Bool.false_and]
          | cons e s3 =>
            rw [List.cons_append]
            rw [show List.isPrefixOf ['c', '/'] (e :: (s3 ++ '/' :: r2)) =
              (('c' == e) && List.isPrefixOf ['/'] (s3 ++ '/' :: r2)) from rfl]
            by_cases hece : 'c' = e
            · subst hece
              rw [show ('c' == 'c') = true from by simp, Bool.true_and]
              cases s3 with
              | nil => exact absurd rfl hne
              | cons g s4 =>
                rw [List.cons_append]
                rw [show List.isPrefixOf ['/'] (g :: (s4 ++ '/' :: r2)) =
                  (('/' == g) && List.isPrefixOf [] (s4 ++ '/' :: r2)) from rfl]
                have hg : ¬('/' = g) := by
                  intro he
                  exact hslash (by rw [he]; simp)
                rw [show ('/' == g) = false from by simpa using hg, Bool.false_and]
            · rw [show ('c' == e) = false from by simpa using hece, Bool.false_and]
        · rw [show ('r' == b) = false from by simpa using hb, Bool.false_and]
    · rw [show ('s' == a) = false from by simpa using ha, Bool.false_and]

/-- The trailing-separator check is false when the final character is
something else. -/
theorem hasTrail_false (p : List Char) (c : Char) (h : p.getLast? = some c)
    (hc : ¬(c = '/')) : hasTrailL p = false := by
  rw [hasTrailL, h]
  split
  · rename_i heq
    exact absurd (by injection heq) hc
  · rfl

/-- A character of an intercalation is the separator or sits in one of the
pieces. -/
theorem mem_interc (sep : Char) (L : List (List Char)) (c : Char)
    (h : c ∈ intercL [sep] L) : c = sep ∨ ∃ s ∈ L, c ∈ s := by
  induction L with
  | nil => cases h
  | cons x L2 ih =>
    cases hL2 : L2 with
    | nil =>
      subst hL2
      exact Or.inr ⟨x, by simp, h⟩
    | cons x2 L3 =>
      have hne : L2 ≠ [] := by rw [hL2]; simp
      rw [interc_cons [sep] x L2 hne] at h
      rw [← hL2]
      rcases List.mem_append.mp h with h | h
      · rcases List.mem_append.mp h with h | h
        · exact Or.inr ⟨x, by simp, h⟩
        · exact Or.inl (by simpa using h)
      · rcases ih h with h | ⟨s, hs, hcs⟩
        · exact Or.inl h
        · exact Or.inr ⟨s, by simp [hs], hcs⟩

/-- The raw data of an assembled doc root, with the two trailing-separator
shapes reduced. -/
theorem rootStr_data_false (R : List (List Char)) :
    (rootStr R false).data = '/' :: intercL ['/'] R ++ [] := rfl

/-- The raw data of an assembled doc root holding the trailing
separator. -/
theorem rootStr_data_true (R : List (List Char)) :
    (rootStr R true).data = '/' :: intercL ['/'] R ++ ['/'] := rfl

/-- Every character of an assembled doc root with metacharacter-free
segments is metacharacter-free. -/
theorem rootStr_noMeta (R : List (List Char)) (t : Bool)
    (hRm : ∀ s ∈ R, ∀ c ∈ s, noMetaChar c = true) :
    ∀ c ∈ (rootStr R t).data, noMetaChar c = true := by
  intro c hc
  rw [show (rootStr R t).data =
    '/' :: (intercL ['/'] R ++ (if t then ['/'] else [])) from rfl] at hc
  rcases List.mem_cons.mp hc with hc | hc
  · subst hc
    decide
  · rcases List.mem_append.mp hc with hc | hc
    · rcases mem_interc '/' R c hc with hc | ⟨s, hs, hcs⟩
      · subst hc
        decide
      · exact hRm s hs c hcs
    · cases t with
      | true =>
        have : c = '/' := by simpa using hc
        subst this
        decide
      | false => cases hc

/-- Ensuring the trailing separator on an assembled doc root always lands
on the trailing-separator shape. -/
theorem withSlash_rootStr (R : List (List Char)) (t : Bool) (hR : R ≠ [])
    (hRc : ∀ s ∈ R, canonSeg s) :
    (withSlash (rootStr R t)).data = '/' :: intercL ['/'] R ++ ['/'] := by
  obtain ⟨pre, hpre, _⟩ := interc_last '/' R (R.getLast hR)
    (List.getLast?_eq_getLast R hR)
  obtain ⟨hz1, hz2, hz3, hz4⟩ := hRc (R.getLast hR) (List.getLast_mem hR)
  cases t with
  | true =>
    rw [withSlash]
    have hend : strEnds (rootStr R true) "/" = true := by
      rw [strEnds, List.isSuffixOf_iff_suffix]
      refine ⟨'/' :: intercL ['/'] R, ?_⟩
      rw [rootStr_data_true]
    rw [if_pos hend]
    exact rootStr_data_true R
  | false =>
    rw [withSlash]
    have hlast : (rootStr R false).data.getLast? =
        some ((R.getLast hR).getLast hz1) := by
      rw [rootStr_data_false, List.append_nil, hpre]
      rw [show ('/' :: (pre ++ R.getLast hR)) = ('/' :: pre) ++ R.getLast hR
        from rfl]
      rw [List.getLast?_append, List.getLast?_eq_getLast _ hz1]
      rfl
    have hend : strEnds (rootStr R false) "/" = false := by
      cases hb : strEnds (rootStr R false) "/" with
      | false => rfl
      | true =>
        rw [strEnds, List.isSuffixOf_iff_suffix] at hb
        obtain ⟨a, ha⟩ := hb
        have hsl : (rootStr R false).data.getLast? = some '/' := by
          rw [← ha, show ("/" : String).data = ['/'] from rfl]
          exact List.getLast?_concat a
        rw [hlast] at hsl
        have hcontra := Option.some.inj hsl
        exact absurd (hcontra ▸ List.getLast_mem hz1) hz4
    rw [if_neg (by rw [hend]; simp)]
    rw [String.data_append, rootStr_data_false,
      show ("/" : String).data = ['/'] from rfl]
    simp

/-- stripDir on a metacharacter-free root: the compiled pattern is the
literal root text, so the replace drops exactly the leading prefix. -/
theorem stripDir_noMeta (root f : String)
    (h : ∀ c ∈ root.data, noMetaChar c = true) :
    stripDir f root = Except.ok (dropRoot (withSlash root) f) := by
  have hslash : ∀ c ∈ (withSlash root).data, noMetaChar c = true := by
    intro c hc
    rw [withSlash] at hc
    by_cases he : strEnds root "/" = true
    · rw [if_pos he] at hc
      exact h c hc
    · rw [if_neg he] at hc
      have hdata : (root ++ "/").data = root.data ++ ['/'] := rfl
      rw [hdata] at hc
      rcases List.mem_append.mp hc with h1 | h1
      · exact h c h1
      · have h2 : c = '/' := by simpa using h1
        subst h2
        decide
  have hnodot : ∀ c ∈ (withSlash root).data, ¬(c = '.') := by
    intro c hc he
    have h2 := hslash c hc
    subst he
    rw [noMetaChar] at h2
    simp [tameChar] at h2
  have htame : ∀ c ∈ (withSlash root).data, tameChar c = true := by
    intro c hc
    have h2 := hslash c hc
    rw [noMetaChar] at h2
    cases hb : tameChar c
    · rw [hb] at h2
      simp at h2
    · rfl
  have hunfold : stripDir f root =
      (match parseAtoms (withSlash root).data with
        | none => Except.error ()
        | some pats =>
          match matchSeq pats f.data with
          | some rest => Except.ok (String.mk rest)
          | none => Except.ok f) := rfl
  rw [hunfold, parseAtoms_tame (withSlash root).data htame]
  show (match matchSeq ((withSlash root).data.map charAtom) f.data with
    | some rest => Except.ok (String.mk rest)
    | none => Except.ok f) = _
  rw [matchSeq_lit (withSlash root).data hnodot f.data, dropRoot]
  by_cases hp : (withSlash root).data.isPrefixOf f.data = true
  · rw [if_pos hp, if_pos hp]
  · rw [if_neg hp, if_neg hp]

/-- The assembled absolute path of a file below the root splits at the
slash-ensured root prefix. -/
theorem absPath_split (R D : List (List Char)) (fname : List Char)
    (hR : R ≠ []) :
    (absPath (R ++ D ++ [fname])).data =
      ('/' :: intercL ['/'] R ++ ['/']) ++ intercL ['/'] (D ++ [fname]) := by
  show '/' :: intercL ['/'] (R ++ D ++ [fname]) = _
  rw [List.append_assoc]
  rw [interc_append ['/'] R (D ++ [fname]) hR (by simp)]
  simp

/-- stripDir on a well-formed root and a file below it yields exactly the
root-relative path. -/
theorem stripDir_rootStr (R D : List (List Char)) (t : Bool) (fname : List Char)
    (hR : R ≠ []) (hRc : ∀ s ∈ R, canonSeg s)
    (hRm : ∀ s ∈ R, ∀ c ∈ s, noMetaChar c = true) :
    stripDir (absPath (R ++ D ++ [fname])) (rootStr R t) =
      Except.ok (String.mk (intercL ['/'] (D ++ [fname]))) := by
  rw [stripDir_noMeta (rootStr R t) _ (rootStr_noMeta R t hRm)]
  have hkey : (absPath (R ++ D ++ [fname])).data =
      (withSlash (rootStr R t)).data ++ intercL ['/'] (D ++ [fname]) := by
    rw [withSlash_rootStr R t hR hRc, absPath_split R D fname hR]
  rw [dropRoot]
  have hpre : (withSlash (rootStr R t)).data.isPrefixOf
      (absPath (R ++ D ++ [fname])).data = true := by
    rw [List.isPrefixOf_iff_prefix, hkey]
    exact List.prefix_append _ _
  rw [if_pos hpre]
  have hdrop : (absPath (R ++ D ++ [fname])).data.drop
      (withSlash (rootStr R t)).data.length = intercL ['/'] (D ++ [fname]) := by
    rw [hkey]
    exact List.drop_left _ _
  rw [hdrop]

/-- The root-relative path of a walked file never starts with the src/
prefix when its first segment is not src. -/
theorem src_starts_false (D : List (List Char)) (fname : List Char)
    (hDc : ∀ s ∈ D, canonSeg s) (hD0 : D.head? ≠ some ['s', 'r', 'c'])
    (hfne : fname ≠ []) (hfs : '/' ∉ fname) :
    strStarts (String.mk (intercL ['/'] (D ++ [fname]))) "src/" = false := by
  rw [strStarts]
  rw [show ("src/" : String).data = ['s', 'r', 'c', '/'] from rfl]
  cases D with
  | nil =>
    rw [show (String.mk (intercL ['/'] ([] ++ [fname]))).data = fname from rfl]
    cases hb : List.isPrefixOf ['s', 'r', 'c', '/'] fname with
    | false => rfl
    | true =>
      rw [List.isPrefixOf_iff_prefix] at hb
      exact absurd (hb.subset (by decide : '/' ∈ ['s', 'r', 'c', '/'])) hfs
  | cons d0 D1 =>
    have hsh : (String.mk (intercL ['/'] ((d0 :: D1) ++ [fname]))).data =
        d0 ++ '/' :: intercL ['/'] (D1 ++ [fname]) := by
      show intercL ['/'] (d0 :: (D1 ++ [fname])) = _
      rw [interc_cons ['/'] d0 (D1 ++ [fname]) (by simp)]
      simp
    rw [hsh]
    obtain ⟨h1, _, _, h4⟩ := hDc d0 (by simp)
    have hd0 : d0 ≠ ['s', 'r', 'c'] := fun he => hD0 (by rw [List.head?_cons, he])
    exact src_not_prefix d0 _ h1 h4 hd0

/-- Normalizing an absolute path whose split is an empty lead segment,
well-formed root segments, an optional empty segment from a doubled
separator, and trailing well-formed or dot segments, keeps the root and
the surviving trailing segments. -/
theorem norm_abs_core (R E P : List (List Char))
    (hR : R ≠ []) (hRc : ∀ s ∈ R, canonSeg s)
    (hE : E = [] ∨ E = [[]])
    (hP : P ≠ []) (hPc : ∀ s ∈ P, s = ['.'] ∨ canonSeg s) :
    normalizeL (intercL ['/'] (([] : List Char) :: (R ++ (E ++ P)))) =
      '/' :: intercL ['/'] (R ++ P.filter isRealSeg) := by
  have hT : R ++ (E ++ P) ≠ [] := by
    intro he
    exact hR (List.append_eq_nil.mp he).1
  have hq : intercL ['/'] (([] : List Char) :: (R ++ (E ++ P))) =
      '/' :: intercL ['/'] (R ++ (E ++ P)) := by
    rw [interc_cons ['/'] [] (R ++ (E ++ P)) hT]
    rfl
  have hmem : ∀ s ∈ (([] : List Char) :: (R ++ (E ++ P))),
      s = [] ∨ s = ['.'] ∨ canonSeg s := by
    intro s hs
    rcases List.mem_cons.mp hs with hs | hs
    · exact Or.inl hs
    · rcases List.mem_append.mp hs with hs | hs
      · exact Or.inr (Or.inr (hRc s hs))
      · rcases List.mem_append.mp hs with hs | hs
        · rcases hE with hE | hE
          · subst hE
            cases hs
          · subst hE
            exact Or.inl (by simpa using hs)
        · rcases hPc s hs with h | h
          · exact Or.inr (Or.inl h)
          · exact Or.inr (Or.inr h)
  have hnosep : ∀ s ∈ (([] : List Char) :: (R ++ (E ++ P))), '/' ∉ s := by
    intro s hs
    rcases hmem s hs with h | h | h
    · subst h
      simp
    · subst h
      simp
    · exact h.2.2.2
  have hsplit : splitOnChar '/' (intercL ['/'] (([] : List Char) :: (R ++ (E ++ P)))) =
      ([] : List Char) :: (R ++ (E ++ P)) :=
    splitOnChar_interc '/' _ (by simp) hnosep
  have hfilterE : E.filter isRealSeg = [] := by
    rcases hE with hE | hE
    · rw [hE]
      rfl
    · rw [hE]
      rfl
  have habs : isAbsL (intercL ['/'] (([] : List Char) :: (R ++ (E ++ P)))) = true := by
    rw [hq]
    rfl
  have hqne : intercL ['/'] (([] : List Char) :: (R ++ (E ++ P))) ≠ [] := by
    rw [hq]
    simp
  have hbody : normBody (intercL ['/'] (([] : List Char) :: (R ++ (E ++ P)))) =
      intercL ['/'] (R ++ P.filter isRealSeg) := by
    rw [normBody, habs, hsplit]
    rw [show (!true) = false from rfl]
    rw [normSegs_clean false _ hmem []]
    rw [List.reverse_nil, List.nil_append]
    rw [List.filter_cons, if_neg (by decide)]
    rw [List.filter_append, List.filter_append]
    rw [filter_real_of_canon R hRc, hfilterE]
    rw [List.nil_append]
  have hz := hPc (P.getLast hP) (List.getLast_mem hP)
  have hcz : ∃ c, (P.getLast hP).getLast? = some c ∧ ¬(c = '/') := by
    rcases hz with h | h
    · exact ⟨'.', by rw [h]; rfl, by decide⟩
    · refine ⟨(P.getLast hP).getLast h.1, List.getLast?_eq_getLast _ h.1, ?_⟩
      intro he
      exact h.2.2.2 (he ▸ List.getLast_mem h.1)
  obtain ⟨c, hc1, hc2⟩ := hcz
  have hLlast : ((([] : List Char) :: (R ++ (E ++ P)))).getLast? =
      some (P.getLast hP) := by
    rw [show (([] : List Char) :: (R ++ (E ++ P))) =
      ((([] : List Char) :: (R ++ E)) ++ P) from by simp]
    rw [List.getLast?_append, List.getLast?_eq_getLast P hP]
    rfl
  obtain ⟨pre, hpre, _⟩ := interc_last '/' _ (P.getLast hP) hLlast
  have hqlast : (intercL ['/'] (([] : List Char) :: (R ++ (E ++ P)))).getLast? =
      some c := by
    rw [hpre, List.getLast?_append, hc1]
    rfl
  have htrail : hasTrailL (intercL ['/'] (([] : List Char) :: (R ++ (E ++ P)))) = false :=
    hasTrail_false _ c hqlast hc2
  have hb1 : normBody1 (intercL ['/'] (([] : List Char) :: (R ++ (E ++ P)))) =
      intercL ['/'] (R ++ P.filter isRealSeg) := by
    rw [normBody1, hbody, if_neg ?_]
    intro hand
    rw [habs] at hand
    exact absurd hand.2 (by simp)
  have hb2 : normBody2 (intercL ['/'] (([] : List Char) :: (R ++ (E ++ P)))) =
      intercL ['/'] (R ++ P.filter isRealSeg) := by
    rw [normBody2, hb1, htrail, if_neg (by simp)]
  rw [normalizeL, if_neg hqne, if_pos habs, hb2]

/-- Normalizing a root (with or without its trailing separator) extended
by a separator and further segments. -/
theorem norm_abs (R : List (List Char)) (t : Bool) (P : List (List Char))
    (hR : R ≠ []) (hRc : ∀ s ∈ R, canonSeg s)
    (hP : P ≠ []) (hPc : ∀ s ∈ P, s = ['.'] ∨ canonSeg s) :
    normalizeL (('/' :: intercL ['/'] R ++ (if t then ['/'] else [])) ++
        '/' :: intercL ['/'] P) =
      '/' :: intercL ['/'] (R ++ P.filter isRealSeg) := by
  have hite : (if t then [[]] else ([] : List (List Char))) ++ P ≠ [] := by
    cases t <;> simp [hP]
  have hrw : ('/' :: intercL ['/'] R ++ (if t then ['/'] else [])) ++
      '/' :: intercL ['/'] P =
      intercL ['/'] (([] : List Char) ::
        (R ++ ((if t then [[]] else []) ++ P))) := by
    have h1 : intercL ['/'] (([] : List Char) ::
        (R ++ ((if t then [[]] else []) ++ P))) =
        [] ++ ['/'] ++ intercL ['/'] (R ++ ((if t then [[]] else []) ++ P)) :=
      interc_cons ['/'] [] _ (fun he => hR (List.append_eq_nil.mp he).1)
    have h2 : intercL ['/'] (R ++ ((if t then [[]] else []) ++ P)) =
        intercL ['/'] R ++ ['/'] ++ intercL ['/'] ((if t then [[]] else []) ++ P) :=
      interc_append ['/'] R _ hR hite
    have h3 : intercL ['/'] ((if t then [[]] else ([] : List (List Char))) ++ P) =
        (if t then ['/'] else []) ++ intercL ['/'] P := by
      cases t with
      | false =>
        show intercL ['/'] ([] ++ P) = [] ++ intercL ['/'] P
        rw [List.nil_append, List.nil_append]
      | true =>
        show intercL ['/'] ([[]] ++ P) = ['/'] ++ intercL ['/'] P
        rw [interc_append ['/'] [[]] P (by simp) hP]
        rfl
    rw [h1, h2, h3]
    cases t <;> simp
  rw [hrw]
  exact norm_abs_core R (if t then [[]] else []) P hR hRc
    (by cases t <;> simp) hP hPc

/-- posix join of a root (either trailing-separator shape) with further
non-empty parts that are single well-formed or dot segments. -/
theorem pjoin_abs (B : List Char) (R : List (List Char)) (t : Bool)
    (P : List (List Char))
    (hB : B = '/' :: intercL ['/'] R ++ (if t then ['/'] else []))
    (hR : R ≠ []) (hRc : ∀ s ∈ R, canonSeg s)
    (hP : P ≠ []) (hPc : ∀ s ∈ P, s = ['.'] ∨ canonSeg s) :
    pjoinL (B :: P) = '/' :: intercL ['/'] (R ++ P.filter isRealSeg) := by
  have hfil : (B :: P).filter (fun s => s ≠ []) = B :: P := by
    rw [List.filter_eq_self]
    intro s hs
    rcases List.mem_cons.mp hs with hs | hs
    · subst hs
      rw [hB]
      simp
    · rcases hPc s hs with h | h
      · rw [h]
        simp
      · simp [h.1]
  have hBP : intercL ['/'] (B :: P) = B ++ '/' :: intercL ['/'] P := by
    rw [interc_cons ['/'] B P hP]
    simp
  have hj : pjoinL (B :: P) = normalizeL (intercL ['/'] (B :: P)) := by
    rw [pjoinL, hfil]
  rw [hj, hBP, hB]
  exact norm_abs R t P hR hRc hP hPc

/-- The head character of an intercalation of well-formed segments is not
the separator. -/
theorem interc_head_ne_slash (D : List (List Char)) (hD : D ≠ [])
    (hDc : ∀ s ∈ D, canonSeg s) :
    (intercL ['/'] D).head? ≠ some '/' := by
  obtain ⟨post, hpost⟩ := interc_head '/' D (D.head hD) (List.head?_eq_head hD)
  obtain ⟨h1, _, _, h4⟩ := hDc (D.head hD) (List.head_mem hD)
  cases hhd : D.head hD with
  | nil => exact absurd hhd h1
  | cons c cs =>
    rw [hpost, hhd, List.cons_append, List.head?_cons]
    intro he
    have hc := Option.some.inj he
    exact h4 (by rw [hhd, ← hc]; exact List.mem_cons_self c cs)

/-- The last character of an intercalation of well-formed segments is not
the separator. -/
theorem interc_last_ne_slash (D : List (List Char)) (hD : D ≠ [])
    (hDc : ∀ s ∈ D, canonSeg s) :
    (intercL ['/'] D).getLast? ≠ some '/' := by
  obtain ⟨pre, hpre, _⟩ := interc_last '/' D (D.getLast hD)
    (List.getLast?_eq_getLast D hD)
  obtain ⟨hz1, _, _, hz4⟩ := hDc (D.getLast hD) (List.getLast_mem hD)
  rw [hpre, List.getLast?_append, List.getLast?_eq_getLast _ hz1]
  intro he
  have hc : (D.getLast hD).getLast hz1 = '/' := Option.some.inj he
  exact hz4 (hc ▸ List.getLast_mem hz1)

/-- dirname of the relative path of a file below non-empty directory
segments is the directory intercalation. -/
theorem dirname_rel_cons (D : List (List Char)) (fname : List Char)
    (hD : D ≠ []) (hDc : ∀ s ∈ D, canonSeg s)
    (hfne : fname ≠ []) (hfs : '/' ∉ fname) :
    dirnameL (intercL ['/'] (D ++ [fname])) = intercL ['/'] D := by
  have hq : intercL ['/'] (D ++ [fname]) = intercL ['/'] D ++ '/' :: fname := by
    rw [interc_append ['/'] D [fname] hD (by simp)]
    rw [show intercL ['/'] [fname] = fname from rfl]
    simp
  rw [hq]
  exact dirname_concat _ fname (interc_ne_nil '/' D hD hDc)
    (interc_head_ne_slash D hD hDc) hfne hfs

/-- The module string the non-index branch computes from the relative
path, for any depth of the file below the root. -/
theorem mod_of_rel (D : List (List Char)) (fname : List Char)
    (hDc : ∀ s ∈ D, canonSeg s) (hfne : fname ≠ []) (hfs : '/' ∉ fname) :
    slashesToColons (stripOneTrail (path_dirname
      (String.mk (intercL ['/'] (D ++ [fname]))))) = modStr D := by
  cases D with
  | nil =>
    show slashesToColons (stripOneTrail
      (String.mk (dirnameL (intercL ['/'] ([] ++ [fname]))))) = modStr []
    rw [show intercL ['/'] ([] ++ [fname]) = fname from rfl]
    rw [dirname_noslash fname hfne hfs]
    rfl
  | cons d0 D1 =>
    show slashesToColons (stripOneTrail
      (String.mk (dirnameL (intercL ['/'] ((d0 :: D1) ++ [fname]))))) = _
    rw [dirname_rel_cons (d0 :: D1) fname (by simp) hDc hfne hfs]
    rw [stripOneTrail_of_getLast _
      (interc_last_ne_slash (d0 :: D1) (by simp) hDc)]
    show String.mk (expandSlashes (intercL ['/'] (d0 :: D1))) = _
    rw [expand_interc (d0 :: D1) (by simp) (fun s hs => (hDc s hs).2.2.2)]
    rfl

/-- Unfolding of the walker loop on a single file entry. -/
theorem getDocItems_one_file (docDir : String) (path name : String) :
    getDocItems docDir [⟨path, name, true⟩] =
      (match stripDir path docDir with
       | Except.error u => Except.error u
       | Except.ok p =>
         if strStarts p "src/" then Except.ok []
         else if name = "index.html" then
           if path_basename (path_dirname p) = "." then Except.ok []
           else
             (Except.ok [] : Except Unit (List DocItem)).map
               (fun l => ⟨"module",
                  (if path_dirname (path_dirname p) = "." then none
                   else some (slashesToColons (stripOneTrail
                     (path_dirname (path_dirname p))))),
                  path_basename (path_dirname p), docDir⟩ :: l)
         else
           match findPat name.data with
           | some (k, n) =>
             (Except.ok [] : Except Unit (List DocItem)).map
               (fun l => ⟨String.mk k,
                  some (slashesToColons (stripOneTrail (path_dirname p))),
                  String.mk n, docDir⟩ :: l)
           | none => Except.ok []) := rfl

/-- The walker on one file entry below the root that is neither an index
page nor under src/, with a pattern-matching name: one item, with the
directory segments joined by the double colon as the module (the dot for
a top-level file). -/
theorem getDocItems_file (R D : List (List Char)) (t : Bool)
    (fname k n : List Char)
    (hR : R ≠ []) (hRc : ∀ s ∈ R, canonSeg s)
    (hRm : ∀ s ∈ R, ∀ c ∈ s, noMetaChar c = true)
    (hDc : ∀ s ∈ D, canonSeg s)
    (hD0 : D.head? ≠ some ['s', 'r', 'c'])
    (hfne : fname ≠ []) (hfs : '/' ∉ fname)
    (hfidx : ¬(String.mk fname = "index.html"))
    (hpat : filePatSpec fname = some (k, n)) :
    getDocItems (rootStr R t)
        [⟨absPath (R ++ D ++ [fname]), String.mk fname, true⟩] =
      Except.ok [⟨String.mk k, some (modStr D), String.mk n, rootStr R t⟩] := by
  rw [getDocItems_one_file]
  rw [stripDir_rootStr R D t fname hR hRc hRm]
  dsimp only
  have hsrc := src_starts_false D fname hDc hD0 hfne hfs
  rw [if_neg (by rw [hsrc]; simp)]
  rw [if_neg hfidx]
  have hpat2 : findPat (String.mk fname).data = some (k, n) := by
    rw [findPat_eq]
    exact hpat
  rw [hpat2]
  dsimp only
  rw [mod_of_rel D fname hDc hfne hfs]
  rfl

/-- The walker on one index.html entry below the root at positive depth:
one module item named by the innermost directory, whose module is the
remaining directory segments joined by the double colon, or null when
there are none. -/
theorem getDocItems_index (R D1 : List (List Char)) (z : List Char) (t : Bool)
    (hR : R ≠ []) (hRc : ∀ s ∈ R, canonSeg s)
    (hRm : ∀ s ∈ R, ∀ c ∈ s, noMetaChar c = true)
    (hDc : ∀ s ∈ D1 ++ [z], canonSeg s)
    (hD0 : (D1 ++ [z]).head? ≠ some ['s', 'r', 'c']) :
    getDocItems (rootStr R t)
        [⟨absPath (R ++ (D1 ++ [z]) ++ ["index.html".data]), "index.html", true⟩] =
      Except.ok [⟨"module", parentMod (D1 ++ [z]), String.mk z, rootStr R t⟩] := by
  have hz := hDc z (by simp)
  obtain ⟨hz1, hz2, hz3, hz4⟩ := hz
  rw [getDocItems_one_file]
  rw [stripDir_rootStr R (D1 ++ [z]) t "index.html".data hR hRc hRm]
  dsimp only
  have hfne : "index.html".data ≠ [] := by decide
  have hfs : '/' ∉ "index.html".data := by decide
  have hsrc := src_starts_false (D1 ++ [z]) "index.html".data hDc hD0 hfne hfs
  rw [if_neg (by rw [hsrc]; simp)]
  rw [if_pos rfl]
  have hdig : dirnameL (intercL ['/'] ((D1 ++ [z]) ++ ["index.html".data])) =
      intercL ['/'] (D1 ++ [z]) :=
    dirname_rel_cons (D1 ++ [z]) "index.html".data (by simp) hDc hfne hfs
  have hdir : path_dirname (String.mk (intercL ['/'] ((D1 ++ [z]) ++ ["index.html".data]))) =
      String.mk (intercL ['/'] (D1 ++ [z])) := by
    show String.mk (dirnameL (intercL ['/'] ((D1 ++ [z]) ++ ["index.html".data]))) = _
    rw [hdig]
  rw [hdir]
  have hgl : (D1 ++ [z]).getLast (by simp) = z := by
    have h1 := List.getLast?_eq_getLast (D1 ++ [z]) (by simp)
    rw [List.getLast?_concat] at h1
    exact (Option.some.inj h1).symm
  have hbase : path_basename (String.mk (intercL ['/'] (D1 ++ [z]))) =
      String.mk z := by
    show String.mk (basenameL (intercL ['/'] (D1 ++ [z]))) = _
    rw [basename_interc (D1 ++ [z]) (by simp) hDc, hgl]
  rw [hbase]
  have hmne : ¬(String.mk z = ".") := fun he => hz2 (congrArg String.data he)
  rw [if_neg hmne]
  cases D1 with
  | nil =>
    have hdd : path_dirname (String.mk (intercL ['/'] ([] ++ [z]))) = "." := by
      show String.mk (dirnameL (intercL ['/'] ([] ++ [z]))) = _
      rw [show intercL ['/'] ([] ++ [z]) = z from rfl]
      rw [dirname_noslash z hz1 hz4]
    rw [hdd, if_pos rfl]
    rfl
  | cons d0 D2 =>
    have hDc2 : ∀ s ∈ d0 :: D2, canonSeg s :=
      fun s hs => hDc s (List.mem_append_left [z] hs)
    have hdd : path_dirname (String.mk (intercL ['/'] ((d0 :: D2) ++ [z]))) =
        String.mk (intercL ['/'] (d0 :: D2)) := by
      show String.mk (dirnameL (intercL ['/'] ((d0 :: D2) ++ [z]))) = _
      rw [dirname_rel_cons (d0 :: D2) z (by simp) hDc2 hz1 hz4]
    rw [hdd]
    have hddne : ¬(String.mk (intercL ['/'] (d0 :: D2)) = ".") := fun he =>
      interc_ne_dot (d0 :: D2) (by simp) hDc2 (congrArg String.data he)
    rw [if_neg hddne]
    rw [stripOneTrail_of_getLast _
      (interc_last_ne_slash (d0 :: D2) (by simp) hDc2)]
    have hsc : slashesToColons (String.mk (intercL ['/'] (d0 :: D2))) =
        String.mk (intercL [':', ':'] (d0 :: D2)) := by
      show String.mk (expandSlashes (intercL ['/'] (d0 :: D2))) = _
      rw [expand_interc (d0 :: D2) (by simp) (fun s hs => (hDc2 s hs).2.2.2)]
    rw [hsc]
    have hpm : parentMod ((d0 :: D2) ++ [z]) =
        some (String.mk (intercL [':', ':'] (d0 :: D2))) := by
      rw [parentMod, List.dropLast_concat]
    rw [hpm]
    rfl

/-- Segments the normalization keeps are exactly the well-formed ones
among the dot-or-well-formed. -/
theorem isRealSeg_of_canon (s : List Char) (h : canonSeg s) :
    isRealSeg s = true := by
  rw [isRealSeg]
  simp [h.1, h.2.1]

/-- The glued kind.name.html filename is one well-formed path segment. -/
theorem canon_glue (k n : List Char) (hk : k ≠ []) (hn : n ≠ [])
    (hks : '/' ∉ k) (hns : '/' ∉ n) :
    canonSeg (k ++ '.' :: (n ++ '.' :: "html".data)) := by
  refine ⟨?_, ?_, ?_, ?_⟩
  · intro he
    exact hk (List.append_eq_nil.mp he).1
  · intro he
    rw [show ("html".data : List Char) = ['h', 't', 'm', 'l'] from rfl] at he
    have hl := congrArg List.length he
    simp at hl
    omega
  · intro he
    rw [show ("html".data : List Char) = ['h', 't', 'm', 'l'] from rfl] at he
    have hl := congrArg List.length he
    simp at hl
    omega
  · intro hm
    rcases List.mem_append.mp hm with hm | hm
    · exact hks hm
    · rcases List.mem_cons.mp hm with hm | hm
      · exact absurd hm (by decide)
      · rcases List.mem_append.mp hm with hm | hm
        · exact hns hm
        · rcases List.mem_cons.mp hm with hm | hm
          · exact absurd hm (by decide)
          · exact absurd hm (by decide)

/-- The filename pattern matches a strict kind.name.html shape with the
expected groups. -/
theorem filePatSpec_shape (k n : List Char) (hk : k ≠ []) (hn : n ≠ [])
    (hdk : '.' ∉ k) (hdn : '.' ∉ n) :
    filePatSpec (k ++ '.' :: (n ++ '.' :: "html".data)) = some (k, n) := by
  have hsplit : splitOnChar '.' (k ++ '.' :: (n ++ '.' :: "html".data)) =
      [k, n, "html".data] := by
    rw [splitOnChar_seg_append '.' k (n ++ '.' :: "html".data) hdk]
    rw [splitOnChar_seg_append '.' n "html".data hdn]
    rw [splitOnChar_no_sep '.' "html".data (by decide)]
  rw [filePatSpec, hsplit]
  rw [show ([k, n, "html".data] : List (List Char)).reverse = ["html".data, n, k]
    from by simp]
  show (if ("html".data : List Char) = ['h', 't', 'm', 'l'] ∧ n ≠ [] ∧ k ≠ []
    then some (k, n) else none) = some (k, n)
  rw [if_pos ⟨rfl, hn, hk⟩]

/-- Unfolding of the path reconstruction on an item with a module. -/
theorem getDocItemFilePath_some (kindS m nameS rootS : String) :
    getDocItemFilePath ⟨kindS, some m, nameS, rootS⟩ =
      (if kindS = "module"
       then path_join [path_join (rootS :: (splitCC m.data).map String.mk),
              nameS, "index.html"]
       else path_join [path_join (rootS :: (splitCC m.data).map String.mk),
              kindS ++ "." ++ nameS ++ ".html"]) := rfl

/-- Unfolding of the path reconstruction on an item without a module. -/
theorem getDocItemFilePath_none (kindS nameS rootS : String) :
    getDocItemFilePath ⟨kindS, none, nameS, rootS⟩ =
      (if kindS = "module"
       then path_join [rootS, nameS, "index.html"]
       else path_join [rootS, kindS ++ "." ++ nameS ++ ".html"]) := rfl

/-- The joined module path of a non-index item reconstructs the absolute
directory of the original file. -/
theorem fp1_of_modStr (R D : List (List Char)) (t : Bool)
    (hR : R ≠ []) (hRc : ∀ s ∈ R, canonSeg s)
    (hDc : ∀ s ∈ D, canonSeg s) (hDcol : ∀ s ∈ D, ':' ∉ s) :
    path_join (rootStr R t :: (splitCC (modStr D).data).map String.mk) =
      String.mk ('/' :: intercL ['/'] (R ++ D)) := by
  cases D with
  | nil =>
    show String.mk (pjoinL ((rootStr R t).data :: [['.']])) = _
    rw [pjoin_abs (rootStr R t).data R t [['.']] rfl hR hRc (by simp)
      (fun s hs => Or.inl (by simpa using hs))]
    rw [show List.filter isRealSeg [['.']] = [] from rfl]
  | cons d0 D2 =>
    have hsp : splitCC (modStr (d0 :: D2)).data = d0 :: D2 := by
      show splitCC (intercL [':', ':'] (d0 :: D2)) = _
      exact splitCC_interc (d0 :: D2) (by simp) hDcol
    rw [hsp]
    show String.mk (pjoinL ((rootStr R t).data ::
      ((d0 :: D2).map String.mk).map String.data)) = _
    rw [map_mk_data (d0 :: D2)]
    rw [pjoin_abs (rootStr R t).data R t (d0 :: D2) rfl hR hRc (by simp)
      (fun s hs => Or.inr (hDc s hs))]
    rw [filter_real_of_canon (d0 :: D2) hDc]

/-- Reconstruction for a non-index item as the walker produces it: the
path is exactly the walked file. -/
theorem getDocItemFilePath_file (R D : List (List Char)) (t : Bool)
    (k n : List Char)
    (hR : R ≠ []) (hRc : ∀ s ∈ R, canonSeg s)
    (hDc : ∀ s ∈ D, canonSeg s) (hDcol : ∀ s ∈ D, ':' ∉ s)
    (hk : k ≠ []) (hn : n ≠ []) (hks : '/' ∉ k) (hns : '/' ∉ n)
    (hkm : ¬(String.mk k = "module")) :
    getDocItemFilePath ⟨String.mk k, some (modStr D), String.mk n, rootStr R t⟩ =
      absPath (R ++ D ++ [k ++ '.' :: (n ++ '.' :: "html".data)]) := by
  rw [getDocItemFilePath_some, if_neg hkm]
  rw [fp1_of_modStr R D t hR hRc hDc hDcol]
  have hcanon := canon_glue k n hk hn hks hns
  have hgd : (String.mk k ++ "." ++ String.mk n ++ ".html").data =
      k ++ '.' :: (n ++ '.' :: "html".data) := by
    rw [String.data_append, String.data_append, String.data_append]
    rw [show (String.mk k).data = k from rfl, show (String.mk n).data = n from rfl]
    rw [show ("." : String).data = ['.'] from rfl,
      show (".html" : String).data = '.' :: "html".data from rfl]
    simp
  show String.mk (pjoinL (('/' :: intercL ['/'] (R ++ D)) ::
    [(String.mk k ++ "." ++ String.mk n ++ ".html").data])) = _
  rw [hgd]
  rw [pjoin_abs ('/' :: intercL ['/'] (R ++ D)) (R ++ D) false [k ++ '.' :: (n ++ '.' :: "html".data)]
    (by simp) (fun he => hR (List.append_eq_nil.mp he).1)
    (fun s hs => by
      rcases List.mem_append.mp hs with h | h
      · exact hRc s h
      · exact hDc s h)
    (by simp)
    (fun s hs => by
      rw [List.mem_singleton] at hs
      subst hs
      exact Or.inr hcanon)]
  rw [filter_real_of_canon [k ++ '.' :: (n ++ '.' :: "html".data)]
    (fun s hs => by
      rw [List.mem_singleton] at hs
      subst hs
      exact hcanon)]
  rfl

/-- Reconstruction for a module item as the walker produces it: the path
is exactly the walked index.html. -/
theorem getDocItemFilePath_index (R D1 : List (List Char)) (z : List Char)
    (t : Bool)
    (hR : R ≠ []) (hRc : ∀ s ∈ R, canonSeg s)
    (hDc : ∀ s ∈ D1 ++ [z], canonSeg s) (hDcol : ∀ s ∈ D1, ':' ∉ s) :
    getDocItemFilePath ⟨"module", parentMod (D1 ++ [z]), String.mk z, rootStr R t⟩ =
      absPath (R ++ (D1 ++ [z]) ++ ["index.html".data]) := by
  obtain ⟨hz1, hz2, hz3, hz4⟩ := hDc z (by simp)
  have hidx : canonSeg ("index.html".data) := by decide
  cases D1 with
  | nil =>
    rw [show parentMod ([] ++ [z]) = none from rfl]
    rw [getDocItemFilePath_none, if_pos rfl]
    show String.mk (pjoinL ((rootStr R t).data :: [z, "index.html".data])) = _
    rw [pjoin_abs (rootStr R t).data R t [z, "index.html".data] rfl hR hRc (by simp)
      (fun s hs => by
        rcases List.mem_cons.mp hs with hs | hs
        · subst hs
          exact Or.inr ⟨hz1, hz2, hz3, hz4⟩
        · rw [List.mem_singleton] at hs
          subst hs
          exact Or.inr hidx)]
    rw [filter_real_of_canon [z, "index.html".data]
      (fun s hs => by
        rcases List.mem_cons.mp hs with hs | hs
        · subst hs
          exact ⟨hz1, hz2, hz3, hz4⟩
        · rw [List.mem_singleton] at hs
          subst hs
          exact hidx)]
    rw [show R ++ [z, "index.html".data] =
      R ++ ([] ++ [z]) ++ ["index.html".data] from by simp]
    rfl
  | cons d0 D2 =>
    have hDc2 : ∀ s ∈ d0 :: D2, canonSeg s :=
      fun s hs => hDc s (List.mem_append_left [z] hs)
    have hpm : parentMod ((d0 :: D2) ++ [z]) =
        some (String.mk (intercL [':', ':'] (d0 :: D2))) := by
      rw [parentMod, List.dropLast_concat]
    rw [hpm, getDocItemFilePath_some, if_pos rfl]
    have hsp : splitCC (String.mk (intercL [':', ':'] (d0 :: D2))).data =
        d0 :: D2 := by
      show splitCC (intercL [':', ':'] (d0 :: D2)) = _
      exact splitCC_interc (d0 :: D2) (by simp) hDcol
    rw [hsp]
    have hfp1 : path_join (rootStr R t :: (d0 :: D2).map String.mk) =
        String.mk ('/' :: intercL ['/'] (R ++ (d0 :: D2))) := by
      show String.mk (pjoinL ((rootStr R t).data ::
        ((d0 :: D2).map String.mk).map String.data)) = _
      rw [map_mk_data (d0 :: D2)]
      rw [pjoin_abs (rootStr R t).data R t (d0 :: D2) rfl hR hRc (by simp)
        (fun s hs => Or.inr (hDc2 s hs))]
      rw [filter_real_of_canon (d0 :: D2) hDc2]
    rw [hfp1]
    show String.mk (pjoinL (('/' :: intercL ['/'] (R ++ (d0 :: D2))) ::
      [z, "index.html".data])) = _
    rw [pjoin_abs ('/' :: intercL ['/'] (R ++ (d0 :: D2))) (R ++ (d0 :: D2)) false [z, "index.html".data]
      (by simp) (fun he => hR (List.append_eq_nil.mp he).1)
      (fun s hs => by
        rcases List.mem_append.mp hs with h | h
        · exact hRc s h
        · exact hDc2 s h)
      (by simp)
      (fun s hs => by
        rcases List.mem_cons.mp hs with hs | hs
        · subst hs
          exact Or.inr ⟨hz1, hz2, hz3, hz4⟩
        · rw [List.mem_singleton] at hs
          subst hs
          exact Or.inr hidx)]
    rw [filter_real_of_canon [z, "index.html".data]
      (fun s hs => by
        rcases List.mem_cons.mp hs with hs | hs
        · subst hs
          exact ⟨hz1, hz2, hz3, hz4⟩
        · rw [List.mem_singleton] at hs
          subst hs
          exact hidx)]
    rw [show (R ++ (d0 :: D2)) ++ [z, "index.html".data] =
      R ++ ((d0 :: D2) ++ [z]) ++ ["index.html".data] from by simp]
    rfl

/-- Claim C3, counterexample: for struct.Foo.html at the top level of the
root /docs the walker yields the module some ".", the dirname of the bare
relative filename, and not the empty string the claim states. -/
theorem C3_counterexample :
    getDocItems "/docs" [⟨"/docs/struct.Foo.html", "struct.Foo.html", true⟩] =
      Except.ok [⟨"struct", some ".", "Foo", "/docs"⟩] ∧
    ¬(getDocItems "/docs" [⟨"/docs/struct.Foo.html", "struct.Foo.html", true⟩] =
      Except.ok [⟨"struct", some "", "Foo", "/docs"⟩]) := by
  decide

/-- Claim C3: for a doc root holding a pattern-matching file at the top
level (empty relative dirname) the walker yields exactly one item, whose
module is non-null but equals the dot string "." (the posix dirname of a
bare filename, passed through unchanged), not the empty string. -/
theorem C3_top_level_module (R : List (List Char)) (t : Bool)
    (fname k n : List Char)
    (hR : R ≠ []) (hRc : ∀ s ∈ R, canonSeg s)
    (hRm : ∀ s ∈ R, ∀ c ∈ s, noMetaChar c = true)
    (hfne : fname ≠ []) (hfs : '/' ∉ fname)
    (hfidx : ¬(String.mk fname = "index.html"))
    (hpat : filePatSpec fname = some (k, n)) :
    getDocItems (rootStr R t) [⟨absPath (R ++ [fname]), String.mk fname, true⟩] =
      Except.ok [⟨String.mk k, some ".", String.mk n, rootStr R t⟩] := by
  have h := getDocItems_file R [] t fname k n hR hRc hRm
    (fun s hs => absurd hs (List.not_mem_nil s)) (by simp) hfne hfs hfidx hpat
  rw [List.append_nil R] at h
  exact h

/-- Claim C3, witness: the theorem applied at the root /docs and the file
struct.Foo.html. -/
theorem C3_witness :
    filePatSpec "struct.Foo.html".data = some ("struct".data, "Foo".data) ∧
    getDocItems (rootStr ["docs".data] false)
        [⟨absPath (["docs".data] ++ ["struct.Foo.html".data]),
          String.mk "struct.Foo.html".data, true⟩] =
      Except.ok [⟨String.mk "struct".data, some ".", String.mk "Foo".data,
        rootStr ["docs".data] false⟩] :=
  ⟨by decide, C3_top_level_module ["docs".data] false "struct.Foo.html".data
    "struct".data "Foo".data (by decide) (by decide) (by decide) (by decide)
    (by decide) (by decide) (by decide)⟩

/-- Claim C5, counterexample: the walked file a.b.c.html yields an item
whose reconstructed path is /docs/b.c.html, not the walked file, and that
item is identical to the one the distinct file b.c.html yields, so two
files of the same root collapse to one location. -/
theorem C5_counterexample :
    getDocItems "/docs" [⟨"/docs/a.b.c.html", "a.b.c.html", true⟩] =
      Except.ok [⟨"b", some ".", "c", "/docs"⟩] ∧
    getDocItems "/docs" [⟨"/docs/b.c.html", "b.c.html", true⟩] =
      Except.ok [⟨"b", some ".", "c", "/docs"⟩] ∧
    getDocItemFilePath ⟨"b", some ".", "c", "/docs"⟩ = "/docs/b.c.html" ∧
    ¬(getDocItemFilePath ⟨"b", some ".", "c", "/docs"⟩ = "/docs/a.b.c.html") := by
  decide

/-- Claim C5 (amended): the round trip from a walked file to its DocItem
and back through getDocItemFilePath restores exactly the walked path on
the exact-shape names — index.html below at least one directory, or
kind.name.html with exactly one dot-free kind and one dot-free name
segment whose kind is not the module tag; the shape restriction is needed
(see the counterexample, where a.b.c.html reconstructs to b.c.html). -/
theorem C5_roundtrip (R D : List (List Char)) (t : Bool) (fname : List Char)
    (hR : R ≠ []) (hRc : ∀ s ∈ R, canonSeg s)
    (hRm : ∀ s ∈ R, ∀ c ∈ s, noMetaChar c = true)
    (hDc : ∀ s ∈ D, canonSeg s) (hDcol : ∀ s ∈ D, ':' ∉ s)
    (hD0 : D.head? ≠ some ['s', 'r', 'c'])
    (hshape : (fname = "index.html".data ∧ D ≠ []) ∨
      (∃ k n, fname = k ++ '.' :: (n ++ '.' :: "html".data) ∧ k ≠ [] ∧ n ≠ [] ∧
        '.' ∉ k ∧ '.' ∉ n ∧ '/' ∉ k ∧ '/' ∉ n ∧ ¬(String.mk k = "module"))) :
    ∃ item,
      getDocItems (rootStr R t)
          [⟨absPath (R ++ D ++ [fname]), String.mk fname, true⟩] =
        Except.ok [item] ∧
      getDocItemFilePath item = absPath (R ++ D ++ [fname]) := by
  rcases hshape with ⟨hf, hD⟩ | ⟨k, n, hf, hk, hn, hdk, hdn, hks, hns, hkm⟩
  · subst hf
    obtain ⟨D1, z, hDz⟩ : ∃ D1 z, D = D1 ++ [z] :=
      ⟨D.dropLast, D.getLast hD, (List.dropLast_append_getLast hD).symm⟩
    subst hDz
    refine ⟨⟨"module", parentMod (D1 ++ [z]), String.mk z, rootStr R t⟩, ?_, ?_⟩
    · exact getDocItems_index R D1 z t hR hRc hRm hDc hD0
    · exact getDocItemFilePath_index R D1 z t hR hRc hDc
        (fun s hs => hDcol s (List.mem_append_left [z] hs))
  · subst hf
    have hcanon := canon_glue k n hk hn hks hns
    have hpat := filePatSpec_shape k n hk hn hdk hdn
    have hfidx : ¬(String.mk (k ++ '.' :: (n ++ '.' :: "html".data)) =
        "index.html") := by
      intro he
      have hdata : k ++ '.' :: (n ++ '.' :: "html".data) = "index.html".data :=
        congrArg String.data he
      rw [hdata] at hpat
      have hnone : filePatSpec "index.html".data = none := by decide
      rw [hnone] at hpat
      cases hpat
    refine ⟨⟨String.mk k, some (modStr D), String.mk n, rootStr R t⟩, ?_, ?_⟩
    · exact getDocItems_file R D t (k ++ '.' :: (n ++ '.' :: "html".data)) k n
        hR hRc hRm hDc hD0 hcanon.1 hcanon.2.2.2 hfidx hpat
    · exact getDocItemFilePath_file R D t k n hR hRc hDc hDcol hk hn hks hns hkm

/-- Claim C5, witness: the round trip applied at the root /docs and the
walked file /docs/std/fn.min.html. -/
theorem C5_witness :
    (["docs".data] : List (List Char)) ≠ [] ∧
    ∃ item,
      getDocItems (rootStr ["docs".data] false)
          [⟨absPath (["docs".data] ++ ["std".data] ++ ["fn.min.html".data]),
            String.mk "fn.min.html".data, true⟩] =
        Except.ok [item] ∧
      getDocItemFilePath item =
        absPath (["docs".data] ++ ["std".data] ++ ["fn.min.html".data]) :=
  ⟨by decide, C5_roundtrip ["docs".data] ["std".data] false "fn.min.html".data
    (by decide) (by decide) (by decide) (by decide) (by decide) (by decide)
    (Or.inr ⟨"fn".data, "min".data, by decide, by decide, by decide, by decide,
      by decide, by decide, by decide, by decide⟩)⟩

end RustDocSrc
